import Mathlib

/-!
Verification of the Resume-helper repository's core string logic.

The Python source is shallowly embedded over `List Char`:
* `src/utils/latex_parser.py` — summary extraction/replacement and the two
  block replacers, with the relevant `re` semantics (leftmost match, lazy
  quantifiers, `re.sub` replacement-template parsing) implemented
  operationally for the concrete patterns appearing in the source;
* `src/validators/summary_validator.py`, `experience_validator.py`,
  `skills_validator.py` — the three validators, with error/warning messages
  embedded as inductive values carrying the data the Python f-strings
  interpolate;
* `src/utils/jd_analyzer.py` — the deterministic fallback heuristics
  (`_get_default_metadata`);
* `src/utils/keyword_analyzer.py` — `count_keyword_matches`.

Strings are ASCII in this application; Python `str.lower` is embedded as the
ASCII lowering `lowerN`, and `\s`, `\w`, `\d` as their ASCII classes.
-/

/-- Documents and fragments are lists of characters (Python `str`). -/
abbrev Str := List Char

/-- ASCII lowering of a character code, as Python `str.lower` acts on ASCII. -/
def lowerN (c : Char) : Nat :=
  if 65 ≤ c.toNat ∧ c.toNat ≤ 90 then c.toNat + 32 else c.toNat

/-- Case-insensitive character comparison (Python lowers both sides, or the
`re.IGNORECASE` flag). -/
def ciEq (a b : Char) : Bool := lowerN a = lowerN b

/-- Exact character comparison, for the case-sensitive regexes. -/
def exEq (a b : Char) : Bool := a = b

/-- Python `\s` on ASCII (also the set used by `str.strip`). -/
def isWsC (c : Char) : Bool :=
  c = ' ' ∨ c = '\t' ∨ c = '\n' ∨ c = '\x0d' ∨ c = '\x0b' ∨ c = '\x0c'

/-- Python `\d` on ASCII. -/
def isDigitC (c : Char) : Bool := 48 ≤ c.toNat ∧ c.toNat ≤ 57

/-- Python `\w` on ASCII (word character for `\b` boundaries). -/
def isWordC (c : Char) : Bool :=
  isDigitC c ∨ (65 ≤ c.toNat ∧ c.toNat ≤ 90) ∨ (97 ≤ c.toNat ∧ c.toNat ≤ 122) ∨ c = '_'

/-- Numeric value of a digit list (Python `int` on a matched digit group). -/
def natOfDigits (ds : Str) : Nat :=
  ds.foldl (fun a c => 10 * a + (c.toNat - 48)) 0

/-- `splitPref eq pat s`: if `pat` matches the front of `s` under `eq`,
return the matched front of `s` and the remainder. -/
def splitPref (eq : Char → Char → Bool) : Str → Str → Option (Str × Str)
  | [], s => some ([], s)
  | _ :: _, [] => none
  | p :: ps, c :: cs =>
    if eq p c then (splitPref eq ps cs).map (fun x => (c :: x.1, x.2)) else none

/-- Whether `pat` matches the front of `s` under `eq`. -/
def hasPref (eq : Char → Char → Bool) (pat s : Str) : Bool :=
  (splitPref eq pat s).isSome

/-- First occurrence of `pat` in `s` under `eq`, as a decomposition
`(before, matched, after)`.  This is the semantics of an unanchored lazy
search for a literal. -/
def findSplit (eq : Char → Char → Bool) (pat : Str) : Str → Option (Str × Str × Str)
  | [] => (splitPref eq pat []).map (fun x => ([], x.1, x.2))
  | c :: cs =>
    match splitPref eq pat (c :: cs) with
    | some (m, r) => some ([], m, r)
    | none => (findSplit eq pat cs).map (fun x => (c :: x.1, x.2.1, x.2.2))

/-- Python `pat in s` on a case-insensitively compared pattern
(both sides lowered in the source). -/
def containsCI (s : Str) (pat : Str) : Bool := (findSplit ciEq pat s).isSome

/-- Python `pat in s` with exact case. -/
def containsEx (s : Str) (pat : Str) : Bool := (findSplit exEq pat s).isSome

/-- Greedy run of characters satisfying `p` (regex `p*` before a literal that
no `p`-character can begin). -/
def spanP (p : Char → Bool) : Str → Str × Str
  | [] => ([], [])
  | c :: cs =>
    if p c then
      let x := spanP p cs
      (c :: x.1, x.2)
    else ([], c :: cs)

/-- Python `str.strip`. -/
def stripWs (s : Str) : Str :=
  ((s.dropWhile (fun c => isWsC c)).reverse.dropWhile (fun c => isWsC c)).reverse

/-- Python `str.rstrip`. -/
def rstripWs (s : Str) : Str :=
  (s.reverse.dropWhile (fun c => isWsC c)).reverse

/-- Split a string at newline characters (Python `str.split('\n')`). -/
def splitNl : Str → List Str
  | [] => [[]]
  | c :: cs =>
    let r := splitNl cs
    if c = '\n' then [] :: r
    else
      match r with
      | [] => [[c]]
      | h :: t => (c :: h) :: t

theorem splitPref_decomp {eq pat s m r} (h : splitPref eq pat s = some (m, r)) :
    s = m ++ r ∧ m.length = pat.length := by
  induction pat generalizing s m r with
  | nil =>
    simp only [splitPref, Option.some.injEq, Prod.mk.injEq] at h
    obtain ⟨h1, h2⟩ := h
    simp [← h1, ← h2]
  | cons p ps ih =>
    cases s with
    | nil => simp [splitPref] at h
    | cons c cs =>
      simp only [splitPref] at h
      by_cases hc : eq p c
      · rw [if_pos hc, Option.map_eq_some'] at h
        obtain ⟨⟨m', r'⟩, hm, he⟩ := h
        obtain ⟨h1, h2⟩ := ih hm
        cases he
        simp [h1, h2]
      · rw [if_neg hc] at h
        cases h

theorem findSplit_decomp {eq pat s b m r} (h : findSplit eq pat s = some (b, m, r)) :
    s = b ++ m ++ r ∧ m.length = pat.length := by
  induction s generalizing b m r with
  | nil =>
    simp only [findSplit, Option.map_eq_some'] at h
    obtain ⟨⟨m', r'⟩, hm, he⟩ := h
    obtain ⟨h1, h2⟩ := splitPref_decomp hm
    cases he
    simp [← h1, h2]
  | cons c cs ih =>
    simp only [findSplit] at h
    cases hsp : splitPref eq pat (c :: cs) with
    | some x =>
      rw [hsp] at h
      obtain ⟨m', r'⟩ := x
      simp at h
      obtain ⟨hb, hm, hr⟩ := h
      obtain ⟨h1, h2⟩ := splitPref_decomp hsp
      subst hb hm hr
      simp [← h1, h2]
    | none =>
      rw [hsp] at h
      rw [Option.map_eq_some'] at h
      obtain ⟨⟨b', m', r'⟩, hm, he⟩ := h
      obtain ⟨h1, h2⟩ := ih hm
      cases he
      simp [h1, h2]

/-! ## LaTeX section engine (`src/utils/latex_parser.py`)

The summary patterns from the source, with `re.DOTALL | re.IGNORECASE`:

* extract: `%-+SUMMARY-+.*?\section{Summary}.*?\begin{itemize}(.*?)\end{itemize}`
* replace: `(%-+SUMMARY-+.*?\section{Summary}.*?\begin{itemize}[^\n]*\n)(.*?)(\end{itemize})`

Lazy `.*?` pieces resolve to the first occurrence of the following literal;
a failing piece cannot be rescued by backtracking (every retry searches a
suffix of a failed search), so each pattern is implemented as a chain of
first-occurrence searches after the leftmost `%-+SUMMARY-+` anchor. -/

def lbrace : Char := '\x7b'

def rbrace : Char := '\x7d'

/-- `{name}` as a character list (LaTeX braces). -/
def braced (s : String) : Str := lbrace :: (s.data ++ [rbrace])

/-- Character list of a Lean string literal. -/
def strL (s : String) : Str := s.data

def sectionSummaryTok : Str := strL "\\section" ++ braced "Summary"

def beginItemizeTok : Str := strL "\\begin" ++ braced "itemize"

def endItemizeTok : Str := strL "\\end" ++ braced "itemize"

def itemTok : Str := strL "\\item"

/-- Match `%-+SUMMARY-+` (case-insensitive) at the head of `s`, returning the
matched text and the remainder.  The dash runs are greedy; since neither
`SUMMARY` nor any following piece can begin with `-`, greediness is exact. -/
def matchAnchorHead : Str → Option (Str × Str)
  | [] => none
  | c :: cs =>
    if c = '%' then
      let d1 := spanP (fun x => x = '-') cs
      if d1.1 = [] then none
      else
        match splitPref ciEq (strL "summary") d1.2 with
        | none => none
        | some (msum, r1) =>
          let d2 := spanP (fun x => x = '-') r1
          if d2.1 = [] then none
          else some (c :: (d1.1 ++ msum ++ d2.1), d2.2)
    else none

/-- Leftmost position at which `%-+SUMMARY-+` matches, as a decomposition
`(before, matchedAnchor, rest)`. -/
def findAnchor : Str → Option (Str × Str × Str)
  | [] => none
  | c :: cs =>
    match matchAnchorHead (c :: cs) with
    | some (m, r) => some ([], m, r)
    | none => (findAnchor cs).map (fun x => (c :: x.1, x.2.1, x.2.2))

theorem spanP_decomp (p : Char → Bool) (s : Str) : s = (spanP p s).1 ++ (spanP p s).2 := by
  induction s with
  | nil => simp [spanP]
  | cons c cs ih =>
    by_cases h : p c
    · simp only [spanP, h, if_true]
      exact congrArg (c :: ·) ih
    · simp [spanP, h]

/-- The lazy capture `(.*?)(?=\item|$)` of the bullet-splitting pattern
`\item\s+(.*?)(?=\item|$)` (IGNORECASE, DOTALL): consume until either
`\item` matches ahead or `$` holds, where without `re.MULTILINE` the `$`
assertion holds at the end of the string and just before a final newline. -/
def captureUntil : Str → Str × Str
  | [] => ([], [])
  | c :: cs =>
    if hasPref ciEq itemTok (c :: cs) then ([], c :: cs)
    else if c = '\n' ∧ cs = [] then ([], ['\n'])
    else
      let x := captureUntil cs
      (c :: x.1, x.2)

theorem captureUntil_decomp (s : Str) : s = (captureUntil s).1 ++ (captureUntil s).2 := by
  induction s with
  | nil => simp [captureUntil]
  | cons c cs ih =>
    by_cases h1 : hasPref ciEq itemTok (c :: cs)
    · simp [captureUntil, h1]
    · by_cases h2 : c = '\n' ∧ cs = []
      · simp only [captureUntil, h1, if_false, h2, if_true]
        simp [h2.1, h2.2]
      · simp only [captureUntil, h1, if_false, h2]
        exact congrArg (c :: ·) ih

/-- `re.findall(r'\item\s+(.*?)(?=\item|$)', itemize_content, re.DOTALL)`:
scan for `\item`, require at least one whitespace character, take the lazy
capture, and resume scanning at the (zero-width) lookahead position.
The first argument is recursion fuel; every step consumes at least one
character, so `parseItems` below supplies enough for the limit branch to be
unreachable (`parseItemsF_congr`). -/
def parseItemsF : Nat → Str → List Str
  | _, [] => []
  | 0, _ :: _ => []
  | fuel + 1, c :: cs =>
    match splitPref ciEq itemTok (c :: cs) with
    | none => parseItemsF fuel cs
    | some mr =>
      if (spanP isWsC mr.2).1 = [] then parseItemsF fuel cs
      else
        (captureUntil (spanP isWsC mr.2).2).1 ::
          parseItemsF fuel (captureUntil (spanP isWsC mr.2).2).2

def parseItems (s : Str) : List Str := parseItemsF s.length s

theorem parseItemsF_congr {fuel fuel' : Nat} {s : Str}
    (h1 : s.length ≤ fuel) (h2 : s.length ≤ fuel') :
    parseItemsF fuel s = parseItemsF fuel' s := by
  induction fuel generalizing s fuel' with
  | zero =>
    have hs : s = [] := List.length_eq_zero.mp (Nat.le_zero.mp h1)
    subst hs
    cases fuel' <;> rfl
  | succ fuel ih =>
    cases s with
    | nil => cases fuel' <;> rfl
    | cons c cs =>
      cases fuel' with
      | zero => simp at h2
      | succ fuel' =>
        simp only [List.length_cons, Nat.succ_le_succ_iff] at h1 h2
        simp only [parseItemsF]
        cases hsp : splitPref ciEq itemTok (c :: cs) with
        | none =>
          dsimp only
          exact ih h1 h2
        | some mr =>
          dsimp only
          by_cases hw : (spanP isWsC mr.2).1 = []
          · rw [if_pos hw, if_pos hw]
            exact ih h1 h2
          · rw [if_neg hw, if_neg hw]
            obtain ⟨hd, hl⟩ := splitPref_decomp hsp
            have hsd := spanP_decomp isWsC mr.2
            have hcu := captureUntil_decomp (spanP isWsC mr.2).2
            have hlen1 := congrArg List.length hd
            have hlen2 := congrArg List.length hsd
            have hlen3 := congrArg List.length hcu
            have hml : 0 < mr.1.length := by
              rw [hl]
              decide
            simp only [List.length_cons, List.length_append] at hlen1 hlen2 hlen3
            have hle : (captureUntil (spanP isWsC mr.2).2).2.length ≤ cs.length := by omega
            rw [ih (Nat.le_trans hle h1) (Nat.le_trans hle h2)]

/-- One list-comprehension step of `extract_summary_section`: keep a raw
bullet if its `strip()` is non-empty, as `strip().replace('\n', ' ')`. -/
def cleanBullet (b : Str) : Option Str :=
  if stripWs b = [] then none
  else some ((stripWs b).map (fun c => if c = '\n' then ' ' else c))

/-- `extract_summary_section` of `src/utils/latex_parser.py`. -/
def extract_summary_section (doc : Str) : Option (List Str) :=
  match findAnchor doc with
  | none => none
  | some (_, _, r1) =>
    match findSplit ciEq sectionSummaryTok r1 with
    | none => none
    | some (_, _, r2) =>
      match findSplit ciEq beginItemizeTok r2 with
      | none => none
      | some (_, _, r3) =>
        match findSplit ciEq endItemizeTok r3 with
        | none => none
        | some (body, _, _) =>
          let cleaned := (parseItems body).filterMap cleanBullet
          if cleaned = [] then none else some cleaned

/-! ### `re.sub` replacement-template semantics

`replace_summary_section` passes a *string* replacement to `re.sub`
(`r'\1' + formatted_bullets + '\n' + r'\3'`, where `formatted_bullets`
interpolates the bullet text verbatim), so CPython parses the whole string —
bullet text included — as a replacement template before scanning.  The other
two replacers pass a function and have no template step. -/

inductive TItem where
  | lit (c : Char)
  | grp (n : Nat)
deriving DecidableEq, Repr

def isAsciiLetter (c : Char) : Bool :=
  (65 ≤ c.toNat ∧ c.toNat ≤ 90) ∨ (97 ≤ c.toNat ∧ c.toNat ≤ 122)

def isOctC (c : Char) : Bool := 48 ≤ c.toNat ∧ c.toNat ≤ 55

/-- Known ASCII escapes of the template language (`\a \b \f \n \r \t \v`). -/
def templEscape (c : Char) : Option Char :=
  if c = 'a' then some '\x07'
  else if c = 'b' then some '\x08'
  else if c = 'f' then some '\x0c'
  else if c = 'n' then some '\n'
  else if c = 'r' then some '\x0d'
  else if c = 't' then some '\t'
  else if c = 'v' then some '\x0b'
  else none

/-- Group reference bound: the summary pattern has 3 capture groups. -/
def summaryGroupCount : Nat := 3

/-- CPython `re._parser.parse_template` handling of `\g<...>`: the name is
the run of characters up to `>`; an all-digit name is a numbered group
reference validated against the group count. -/
def gNameStep (r2 : Str) : Except String (List TItem × Str) :=
  match (spanP (fun c => ¬ c = '>') r2).2 with
  | '>' :: r3 =>
    if (spanP (fun c => ¬ c = '>') r2).1 = [] then Except.error "missing group name"
    else if (spanP (fun c => ¬ c = '>') r2).1.all (fun c => isDigitC c) then
      if natOfDigits (spanP (fun c => ¬ c = '>') r2).1 ≤ summaryGroupCount then
        Except.ok ([TItem.grp (natOfDigits (spanP (fun c => ¬ c = '>') r2).1)], r3)
      else Except.error "invalid group reference"
    else Except.error "unknown group name"
  | _ => Except.error "missing >, unterminated name"

theorem gNameStep_shrinks {r2 : Str} {its rest} (h : gNameStep r2 = Except.ok (its, rest)) :
    rest.length ≤ r2.length := by
  unfold gNameStep at h
  have hsd := spanP_decomp (fun c => ¬ c = '>') r2
  split at h
  · rename_i r3 hspl
    repeat' split at h
    all_goals try (exact Except.noConfusion h)
    simp only [Except.ok.injEq, Prod.mk.injEq] at h
    obtain ⟨h1, h2⟩ := h
    subst h2
    rw [hspl] at hsd
    have hlen := congrArg List.length hsd
    simp only [List.length_append, List.length_cons] at hlen
    omega
  · exact Except.noConfusion h

/-- CPython `re._parser.parse_template` handling of one `\`-escape: the
input is the template text after a backslash, the result the parsed items
and the remaining template.  Restricted to what a 3-group pattern admits:
`\g<...>` named/numbered references, `\1`‥`\99` numbered references
(validated against the group count), octal escapes `\0..`, the known letter
escapes, an error on other letter escapes, and literal pass-through of `\`
followed by any other character. -/
def escStep : Str → Except String (List TItem × Str)
  | [] => Except.error "bad escape (end of pattern)"
  | 'g' :: r =>
    match r with
    | '<' :: r2 => gNameStep r2
    | _ => Except.error "missing <"
  | d :: r =>
    if isDigitC d then
      if d = '0' then
        match r with
        | o1 :: o2 :: r2 =>
          if isOctC o1 ∧ isOctC o2 then
            Except.ok ([TItem.lit (Char.ofNat (8 * (o1.toNat - 48) + (o2.toNat - 48)))], r2)
          else if isOctC o1 then
            Except.ok ([TItem.lit (Char.ofNat (o1.toNat - 48))], o2 :: r2)
          else Except.ok ([TItem.lit '\x00'], r)
        | [o1] =>
          if isOctC o1 then Except.ok ([TItem.lit (Char.ofNat (o1.toNat - 48))], [])
          else Except.ok ([TItem.lit '\x00'], r)
        | [] => Except.ok ([TItem.lit '\x00'], [])
      else
        match r with
        | d2 :: r2 =>
          if isDigitC d2 then
            match r2 with
            | d3 :: r3 =>
              if isOctC d ∧ isOctC d2 ∧ isOctC d3 then
                if 64 * (d.toNat - 48) + 8 * (d2.toNat - 48) + (d3.toNat - 48) ≤ 255 then
                  Except.ok
                    ([TItem.lit (Char.ofNat
                        (64 * (d.toNat - 48) + 8 * (d2.toNat - 48) + (d3.toNat - 48)))], r3)
                else Except.error "octal escape value outside of range 0-0o377"
              else if natOfDigits [d, d2] ≤ summaryGroupCount then
                Except.ok ([TItem.grp (natOfDigits [d, d2])], r2)
              else Except.error "invalid group reference"
            | [] =>
              if natOfDigits [d, d2] ≤ summaryGroupCount then
                Except.ok ([TItem.grp (natOfDigits [d, d2])], [])
              else Except.error "invalid group reference"
          else if natOfDigits [d] ≤ summaryGroupCount then
            Except.ok ([TItem.grp (natOfDigits [d])], r)
          else Except.error "invalid group reference"
        | [] =>
          if natOfDigits [d] ≤ summaryGroupCount then
            Except.ok ([TItem.grp (natOfDigits [d])], [])
          else Except.error "invalid group reference"
    else
      match templEscape d with
      | some e => Except.ok ([TItem.lit e], r)
      | none =>
        if d = '\\' then Except.ok ([TItem.lit '\\'], r)
        else if isAsciiLetter d then Except.error "bad escape"
        else Except.ok ([TItem.lit '\\', TItem.lit d], r)

theorem escStep_shrinks {s : Str} {its rest}
    (h : escStep s = Except.ok (its, rest)) : rest.length ≤ s.length := by
  unfold escStep at h
  repeat' split at h
  all_goals try (exact Except.noConfusion h)
  all_goals try (refine le_trans (gNameStep_shrinks h) ?_; simp only [List.length_cons]; omega)
  all_goals
    (simp only [Except.ok.injEq, Prod.mk.injEq] at h
     obtain ⟨h1, h2⟩ := h
     subst h2
     simp only [List.length_cons, List.length_nil]
     omega)

/-- CPython `re._parser.parse_template`: literal characters pass through,
`\`-escapes are handled by `escStep`.  The first argument is recursion
fuel; every step consumes at least one character, so `parseTemplate` below
supplies enough for the limit branch to be unreachable
(`parseTemplateF_congr`). -/
def parseTemplateF : Nat → Str → Except String (List TItem)
  | _, [] => Except.ok []
  | 0, _ :: _ => Except.error "recursion limit"
  | fuel + 1, c :: rest =>
    if c = '\\' then
      match escStep rest with
      | Except.error e => Except.error e
      | Except.ok (its, r2) => (parseTemplateF fuel r2).map (fun t => its ++ t)
    else (parseTemplateF fuel rest).map (fun t => TItem.lit c :: t)

def parseTemplate (s : Str) : Except String (List TItem) := parseTemplateF s.length s

theorem parseTemplateF_congr {fuel fuel' : Nat} {s : Str}
    (h1 : s.length ≤ fuel) (h2 : s.length ≤ fuel') :
    parseTemplateF fuel s = parseTemplateF fuel' s := by
  induction fuel generalizing s fuel' with
  | zero =>
    have hs : s = [] := List.length_eq_zero.mp (Nat.le_zero.mp h1)
    subst hs
    cases fuel' <;> rfl
  | succ fuel ih =>
    cases s with
    | nil => cases fuel' <;> rfl
    | cons c cs =>
      cases fuel' with
      | zero => simp at h2
      | succ fuel' =>
        simp only [List.length_cons, Nat.succ_le_succ_iff] at h1 h2
        simp only [parseTemplateF]
        by_cases hc : c = '\\'
        · rw [if_pos hc, if_pos hc]
          cases he : escStep cs with
          | error e => rfl
          | ok x =>
            obtain ⟨its, r2⟩ := x
            dsimp only
            have hr2 := escStep_shrinks he
            rw [ih (Nat.le_trans hr2 h1) (Nat.le_trans hr2 h2)]
        · rw [if_neg hc, if_neg hc, ih h1 h2]


/-- Expand a parsed template at a match whose groups are `g1, g2, g3`
(group 0 is the whole match). -/
def expandT (g1 g2 g3 : Str) : List TItem → Str
  | [] => []
  | TItem.lit c :: t => c :: expandT g1 g2 g3 t
  | TItem.grp 0 :: t => g1 ++ g2 ++ g3 ++ expandT g1 g2 g3 t
  | TItem.grp 1 :: t => g1 ++ expandT g1 g2 g3 t
  | TItem.grp 2 :: t => g2 ++ expandT g1 g2 g3 t
  | TItem.grp _ :: t => g3 ++ expandT g1 g2 g3 t

/-- The replacement-template characters built by `replace_summary_section`:
`r'\1' + '\n'.join('\\item ' + b for b in bullets) + '\n' + r'\3'`. -/
def templateChars (bullets : List Str) : Str :=
  ['\\', '1'] ++
    List.intercalate ['\n'] (bullets.map (fun b => strL "\\\\item " ++ b)) ++
    ['\n', '\\', '3']

/-- Try the replace pattern at the head of `s`:
`(%-+SUMMARY-+.*?\section{Summary}.*?\begin{itemize}[^\n]*\n)(.*?)(\end{itemize})`.
Returns `(group1, group2, group3, rest)`. -/
def tryReplMatchAt (s : Str) : Option (Str × Str × Str × Str) :=
  match matchAnchorHead s with
  | none => none
  | some (a, r1) =>
    match findSplit ciEq sectionSummaryTok r1 with
    | none => none
    | some (b1, m1, r2) =>
      match findSplit ciEq beginItemizeTok r2 with
      | none => none
      | some (b2, m2, r3) =>
        match findSplit exEq ['\n'] r3 with
        | none => none
        | some (ln, mn, r4) =>
          match findSplit ciEq endItemizeTok r4 with
          | none => none
          | some (g2, m3, rest) =>
            some (a ++ b1 ++ m1 ++ b2 ++ m2 ++ ln ++ mn, g2, m3, rest)

theorem matchAnchorHead_decomp {s a r} (h : matchAnchorHead s = some (a, r)) :
    s = a ++ r ∧ a ≠ [] := by
  cases s with
  | nil => exact Option.noConfusion h
  | cons c cs =>
    simp only [matchAnchorHead] at h
    by_cases hc : c = '%'
    case neg => rw [if_neg hc] at h; exact Option.noConfusion h
    rw [if_pos hc] at h
    by_cases h1 : (spanP (fun x => x = '-') cs).1 = []
    · rw [if_pos h1] at h; exact Option.noConfusion h
    rw [if_neg h1] at h
    cases hsp : splitPref ciEq (strL "summary") (spanP (fun x => x = '-') cs).2 with
    | none => rw [hsp] at h; exact Option.noConfusion h
    | some mr =>
      rw [hsp] at h
      obtain ⟨msum, r1⟩ := mr
      dsimp only at h
      by_cases h2 : (spanP (fun x => x = '-') r1).1 = []
      · rw [if_pos h2] at h; exact Option.noConfusion h
      rw [if_neg h2] at h
      simp only [Option.some.injEq, Prod.mk.injEq] at h
      obtain ⟨he1, he2⟩ := h
      constructor
      · have hd1 := spanP_decomp (fun x => x = '-') cs
        have hd2 := (splitPref_decomp hsp).1
        have hd3 := spanP_decomp (fun x => x = '-') r1
        rw [← he1, ← he2]
        simp only [List.cons_append, List.append_assoc]
        rw [← hd3, ← hd2, ← hd1]
      · rw [← he1]; simp

theorem tryReplMatchAt_decomp {s g1 g2 g3 rest}
    (h : tryReplMatchAt s = some (g1, g2, g3, rest)) :
    s = g1 ++ g2 ++ g3 ++ rest ∧ g1 ≠ [] := by
  unfold tryReplMatchAt at h
  cases hA : matchAnchorHead s with
  | none => rw [hA] at h; cases h
  | some ar =>
    rw [hA] at h
    obtain ⟨a, r1⟩ := ar
    dsimp only at h
    cases h1 : findSplit ciEq sectionSummaryTok r1 with
    | none => rw [h1] at h; cases h
    | some x1 =>
      rw [h1] at h
      obtain ⟨b1, m1, r2⟩ := x1
      dsimp only at h
      cases h2 : findSplit ciEq beginItemizeTok r2 with
      | none => rw [h2] at h; cases h
      | some x2 =>
        rw [h2] at h
        obtain ⟨b2, m2, r3⟩ := x2
        dsimp only at h
        cases h3 : findSplit exEq ['\n'] r3 with
        | none => rw [h3] at h; cases h
        | some x3 =>
          rw [h3] at h
          obtain ⟨ln, mn, r4⟩ := x3
          dsimp only at h
          cases h4 : findSplit ciEq endItemizeTok r4 with
          | none => rw [h4] at h; cases h
          | some x4 =>
            rw [h4] at h
            obtain ⟨g2', m3, rest'⟩ := x4
            dsimp only at h
            simp only [Option.some.injEq, Prod.mk.injEq] at h
            obtain ⟨hg1, hg2, hg3, hrest⟩ := h
            obtain ⟨hda, hne⟩ := matchAnchorHead_decomp hA
            have hd1 := (findSplit_decomp h1).1
            have hd2 := (findSplit_decomp h2).1
            have hd3 := (findSplit_decomp h3).1
            have hd4 := (findSplit_decomp h4).1
            subst hg1 hg2 hg3 hrest
            constructor
            · subst hda hd1 hd2 hd3 hd4
              simp only [List.append_assoc]
            · intro hx
              exact hne (List.append_eq_nil.mp
                (List.append_eq_nil.mp (List.append_eq_nil.mp
                  (List.append_eq_nil.mp (List.append_eq_nil.mp
                    (List.append_eq_nil.mp hx).1).1).1).1).1).1

/-- `re.sub` scan for `replace_summary_section`: try the pattern at every
position left to right; on failure emit one character and move on, on a
match emit the expanded template and continue after the match (the source
passes no `count`, so every match is replaced). -/
def subSummaryF (tok : List TItem) : Nat → Str → Str
  | _, [] => []
  | 0, s => s
  | fuel + 1, c :: cs =>
    match tryReplMatchAt (c :: cs) with
    | none => c :: subSummaryF tok fuel cs
    | some (g1, g2, g3, rest) => expandT g1 g2 g3 tok ++ subSummaryF tok fuel rest

def subSummary (tok : List TItem) (s : Str) : Str := subSummaryF tok s.length s

theorem subSummaryF_congr {tok : List TItem} {fuel fuel' : Nat} {s : Str}
    (h1 : s.length ≤ fuel) (h2 : s.length ≤ fuel') :
    subSummaryF tok fuel s = subSummaryF tok fuel' s := by
  induction fuel generalizing s fuel' with
  | zero =>
    have hs : s = [] := List.length_eq_zero.mp (Nat.le_zero.mp h1)
    subst hs
    cases fuel' <;> rfl
  | succ fuel ih =>
    cases s with
    | nil => cases fuel' <;> rfl
    | cons c cs =>
      cases fuel' with
      | zero => simp at h2
      | succ fuel' =>
        simp only [List.length_cons, Nat.succ_le_succ_iff] at h1 h2
        simp only [subSummaryF]
        cases hm : tryReplMatchAt (c :: cs) with
        | none =>
          dsimp only
          rw [ih h1 h2]
        | some x =>
          obtain ⟨g1, g2, g3, rest⟩ := x
          dsimp only
          obtain ⟨hd, hne⟩ := tryReplMatchAt_decomp hm
          have hlen := congrArg List.length hd
          have hg : 0 < g1.length := List.length_pos.mpr hne
          simp only [List.length_cons, List.length_append] at hlen
          have hle : rest.length ≤ cs.length := by omega
          rw [ih (Nat.le_trans hle h1) (Nat.le_trans hle h2)]

/-- `replace_summary_section` of `src/utils/latex_parser.py`.  The
replacement string `r'\1' + '\n'.join('\\item ' + b) + '\n' + r'\3'` is
parsed as a template first (so a bullet containing an invalid escape raises
`re.error` even without a match), then substituted at every match. -/
def replace_summary_section (doc : Str) (new_bullets : List Str) : Except String Str :=
  match parseTemplate (templateChars new_bullets) with
  | Except.error e => Except.error e
  | Except.ok tok => Except.ok (subSummary tok doc)

/-! ### Experience and skills replacement

`replace_first_experience` pattern (count=1, DOTALL, IGNORECASE):
`(\section{Professional Experience}.*?\resumeSubHeadingListStart\s*)(\resumeSubheading.*?\resumeItemListEnd)`.
The first lazy gap backtracks across successive `\resumeSubHeadingListStart`
occurrences when `\s*\resumeSubheading` fails after one, so the scan loops
over those occurrences.  The replacement is a function (group 1 + new text),
so no template parsing is involved. -/

def secProfExpTok : Str := strL "\\section" ++ braced "Professional Experience"

def subHeadListStartTok : Str := strL "\\resumeSubHeadingListStart"

def subheadingTok : Str := strL "\\resumeSubheading"

def itemListEndTok : Str := strL "\\resumeItemListEnd"

/-- Scan `r` for `\resumeSubHeadingListStart` followed by `\s*` and
`\resumeSubheading.*?\resumeItemListEnd`; on a literal mismatch after the
whitespace run, resume with the next `\resumeSubHeadingListStart`
occurrence.  Returns `(tailOfGroup1, group2, rest)`. -/
def subHLoop : Str → Option (Str × Str × Str)
  | r =>
    match hf : findSplit ciEq subHeadListStartTok r with
    | none => none
    | some (b, m, r2) =>
      match splitPref ciEq subheadingTok (spanP isWsC r2).2 with
      | some (mh, r4) =>
        match findSplit ciEq itemListEndTok r4 with
        | none => none
        | some (c2, me, rest) =>
          some (b ++ m ++ (spanP isWsC r2).1, mh ++ c2 ++ me, rest)
      | none =>
        (subHLoop r2).map (fun x => (b ++ m ++ x.1, x.2.1, x.2.2))
  termination_by s => s.length
  decreasing_by
  · obtain ⟨hd, hl⟩ := findSplit_decomp hf
    have hlen := congrArg List.length hd
    have hm : 0 < m.length := by
      rw [hl]
      decide
    simp only [List.length_append] at hlen
    have hgoal : List.length r2 < List.length r := by omega
    exact hgoal

/-- `replace_first_experience` of `src/utils/latex_parser.py`. -/
def replace_first_experience (doc new_experience : Str) : Str :=
  match findSplit ciEq secProfExpTok doc with
  | none => doc
  | some (a, m, r) =>
    match subHLoop r with
    | none => doc
    | some (g1tail, _, rest) => a ++ m ++ g1tail ++ new_experience ++ rest

def secSkillsTok : Str := strL "\\section" ++ braced "SKILLS"

def secTechSkillsTok : Str := strL "\\section" ++ braced "Technical Skills"

/-- One attempt of `replace_skills_section` for a given heading variant:
`\section{...}.*?\begin{itemize}.*?\end{itemize}` (count=1, DOTALL,
IGNORECASE), replaced by `new_skills` via a function. -/
def replaceSkillsWith (secTok doc new_skills : Str) : Option Str :=
  match findSplit ciEq secTok doc with
  | none => none
  | some (a, _, r) =>
    match findSplit ciEq beginItemizeTok r with
    | none => none
    | some (_, _, r2) =>
      match findSplit ciEq endItemizeTok r2 with
      | none => none
      | some (_, _, rest) => some (a ++ new_skills ++ rest)

/-- `replace_skills_section` of `src/utils/latex_parser.py`: try the
`SKILLS` heading first, then `Technical Skills`, else return the document
unchanged. -/
def replace_skills_section (doc new_skills : Str) : Str :=
  match replaceSkillsWith secSkillsTok doc new_skills with
  | some out => out
  | none =>
    match replaceSkillsWith secTechSkillsTok doc new_skills with
    | some out => out
    | none => doc

/-! ## Keyword matching (`src/utils/keyword_analyzer.py`) -/

/-- `count_keyword_matches`: the number of keywords whose lowered text is a
substring of the lowered text (each keyword counted once). -/
def count_keyword_matches (text : Str) (keywords : List Str) : Nat :=
  (keywords.filter (fun kw => containsCI text kw)).length

/-- Case-insensitive string equality (Python compares lowered strings). -/
def ciStrEq (a b : Str) : Bool := a.length = b.length && hasPref ciEq a b

/-! ## Summary validator (`src/validators/summary_validator.py`)

Error and warning messages are embedded as inductive values carrying the
data the Python f-strings interpolate. -/

structure SummaryValidationContext where
  company_names : List Str
  role_level : Str
  max_experience_years : Option Nat
  leadership_allowed : Bool

/-- A semantic violation raised by `SummaryBullet.check_all_constraints`
(the first one found aborts the remaining checks for that bullet). -/
inductive SemViol where
  | company (name : Str)
  | leadership (verb : Str)
  | expLevel (years maxYears : Nat)
deriving DecidableEq, Repr

def wordOpt : Option Char → Bool
  | some c => isWordC c
  | none => false

/-- Regex `\b` between a previous character and a next character. -/
def bdry (a b : Option Char) : Bool := wordOpt a != wordOpt b

/-- The character preceding the position after `m`, when the character
preceding `m` was `prev`. -/
def lastOr (m : Str) (prev : Option Char) : Option Char :=
  match m.getLast? with
  | some c => some c
  | none => prev

/-- Search for `\b<name>\b` (the source lowers both sides; `ciEq` matching
of the originals is the same relation).  `prev` is the character before the
current position. -/
def wwFrom (name : Str) (prev : Option Char) : Str → Bool
  | [] =>
    match splitPref ciEq name [] with
    | some (m, _) => bdry prev none && bdry (lastOr m prev) none
    | none => false
  | c :: cs =>
    (match splitPref ciEq name (c :: cs) with
     | some (m, r) => bdry prev (some c) && bdry (lastOr m prev) r.head?
     | none => false) ||
    wwFrom name (some c) cs

/-- `re.search(rf'\b{re.escape(name)}\b', content_lower)`. -/
def wholeWordCI (name content : Str) : Bool := wwFrom name none content

/-- After the separator run of `<tok>\s+<name>\b`: `name` followed by `\b`;
`prevWs` is the whitespace character just consumed. -/
def nameBdryAfter (name : Str) (prevWs : Char) (r : Str) : Bool :=
  match splitPref ciEq name r with
  | some (m, rr) => bdry (lastOr m (some prevWs)) rr.head?
  | none => false

/-- `\s+<name>\b` with full backtracking over the run length. -/
def wsThenName (name : Str) : Str → Bool
  | [] => false
  | c :: cs => isWsC c && (nameBdryAfter name c cs || wsThenName name cs)

/-- `re.search(rf'<tok>\s+{re.escape(name)}\b', content_lower)`. -/
def tokWsName (tok name : Str) : Str → Bool
  | [] => false
  | c :: cs =>
    (match splitPref ciEq tok (c :: cs) with
     | some (_, r) => wsThenName name r
     | none => false) ||
    tokWsName tok name cs

/-- The three company patterns of check 1 of
`SummaryBullet.check_all_constraints`. -/
def companyMatch (name content : Str) : Bool :=
  wholeWordCI name content ||
  tokWsName (strL "for") name content ||
  tokWsName (strL "at") name content

/-- The leadership verb patterns of check 2, in source order. -/
def leadershipVerbs : List Str :=
  [strL "led", strL "leading", strL "lead",
   strL "managed", strL "managing", strL "manage",
   strL "directed", strL "directing", strL "direct",
   strL "oversaw", strL "overseeing", strL "oversee",
   strL "supervised", strL "supervising", strL "supervise"]

/-- `\s*(?:yrs?|years?)` (matching succeeds iff `yr` or `year` follows the
whitespace run; the optional `s` has nothing after it). -/
def yrsSuffix (r : Str) : Bool :=
  hasPref ciEq (strL "yr") (spanP isWsC r).2 || hasPref ciEq (strL "year") (spanP isWsC r).2

/-- First match of `(\d+)\+?\s*(?:yrs?|years?)` in the content: scan left to
right; at a digit take the maximal run, try with the optional `+` and
without, then `yrsSuffix`. -/
def expYearsScan : Str → Option Nat
  | [] => none
  | c :: cs =>
    if isDigitC c then
      if (match (spanP isDigitC (c :: cs)).2 with
          | '+' :: r2 => yrsSuffix r2
          | _ => false) || yrsSuffix (spanP isDigitC (c :: cs)).2 then
        some (natOfDigits (spanP isDigitC (c :: cs)).1)
      else expYearsScan cs
    else expYearsScan cs

/-- Check 3 of `SummaryBullet.check_all_constraints`. -/
def checkExpCeiling (ctx : SummaryValidationContext) (content : Str) : Option SemViol :=
  match ctx.max_experience_years with
  | none => none
  | some my =>
    match expYearsScan content with
    | none => none
    | some y => if y > my then some (SemViol.expLevel y my) else none

/-- `SummaryBullet.check_all_constraints`: company names first, then (when
leadership is not allowed) leadership verbs, then the experience ceiling;
the first violation is raised. -/
def checkBulletSem (ctx : SummaryValidationContext) (content : Str) : Option SemViol :=
  match ctx.company_names.find? (fun n => companyMatch n content) with
  | some n => some (SemViol.company n)
  | none =>
    if ctx.leadership_allowed then checkExpCeiling ctx content
    else
      match leadershipVerbs.find? (fun v => wholeWordCI v content) with
      | some v => some (SemViol.leadership v)
      | none => checkExpCeiling ctx content

inductive SumErr where
  | semantic (i : Nat) (v : SemViol)
  | countMismatch (required found : Nat)
  | charCount (i n lo hi : Nat)
  | firstBulletFormat
  | trailingPeriod (i : Nat)
  | keywords (found total required : Nat)
deriving DecidableEq, Repr

inductive SumWarn where
  | noNumbers (i : Nat)
  | escaping
deriving DecidableEq, Repr

/-- `SummaryValidator._parse_bullets`: strip the text, split on newlines,
strip each line, keep lines starting with `\item` (exact case), and strip
the rest of the line. -/
def parseSummaryBullets (text : Str) : List Str :=
  (splitNl (stripWs text)).filterMap (fun line =>
    match splitPref exEq itemTok (stripWs line) with
    | some (_, rest) => some (stripWs rest)
    | none => none)

/-- `p+` followed by a continuation, with full backtracking over the run
length (existential match semantics). -/
def classPlusThen (cls : Char → Bool) (k : Str → Bool) : Str → Bool
  | [] => false
  | c :: cs => cls c && (k cs || classPlusThen cls k cs)

def isAlphaOrWsC (c : Char) : Bool := isAsciiLetter c || isWsC c

/-- `(yrs?|years)` — the alternation of `_check_first_bullet_format`. -/
def fbEnd (r : Str) : Bool := hasPref ciEq (strL "yr") r || hasPref ciEq (strL "years") r

/-- `\+?\s+(yrs?|years)` after the digit run. -/
def fbAfterDigits (r : Str) : Bool :=
  match r with
  | '+' :: r2 => classPlusThen isWsC fbEnd r2 || classPlusThen isWsC fbEnd r
  | _ => classPlusThen isWsC fbEnd r

/-- `\d+\+?\s+(yrs?|years)`. -/
def fbDigits (r : Str) : Bool :=
  decide ((spanP isDigitC r).1 ≠ []) && fbAfterDigits (spanP isDigitC r).2

/-- `SummaryValidator._check_first_bullet_format`:
`re.search(r'^[A-Za-z\s]+\s+with\s+\d+\+?\s+(yrs?|years)', bullet, re.IGNORECASE)`
(`^` anchors the search at the start). -/
def firstBulletFmt (b : Str) : Bool :=
  classPlusThen isAlphaOrWsC (fun r1 =>
    classPlusThen isWsC (fun r2 =>
      match splitPref ciEq (strL "with") r2 with
      | none => false
      | some (_, r3) => classPlusThen isWsC fbDigits r3) r1) b

/-- `bullet.rstrip().endswith('.')`. -/
def endsPeriod (b : Str) : Bool :=
  match (rstripWs b).getLast? with
  | some c => c = '.'
  | none => false

def specialC (c : Char) : Bool :=
  c = '%' ∨ c = '$' ∨ c = '&' ∨ c = '#' ∨ c = '_' ∨ c = lbrace ∨ c = rbrace ∨ c = '^' ∨ c = '~'

/-- `re.search(r'(?<!\\)[%$&#_{}^~]', text)`: a special character not
preceded by a backslash. -/
def hasUnescapedSpecial (prev : Option Char) : Str → Bool
  | [] => false
  | c :: cs => (specialC c && decide (prev ≠ some '\\')) || hasUnescapedSpecial (some c) cs

/-- Configuration read from `settings` in `SummaryValidator.__init__`. -/
structure SummaryConfig where
  char_min : Nat
  char_max : Nat
  bullet_count : Nat
  min_keywords : Nat

/-- The defaults of `config/settings.py`. -/
def defaultSummaryConfig : SummaryConfig := ⟨105, 109, 4, 5⟩

structure SummaryResult where
  passed : Bool
  errors : List SumErr
  warnings : List SumWarn
  score : Int
  keywords_matched : Nat

/-- `max(0, min(100, score))`. -/
def clampScore (x : Int) : Int := max 0 (min 100 x)

/-- Whether `_calculate_score` classifies an error as semantic.  The source
tests whether the lowercase message contains `company name`, `leadership`
or `experience level`; the three semantic messages contain exactly one of
those phrases each, and none of the five structural/lexical messages
(`Must have exactly ...`, `Bullet {i}: {n} chars ...`,
`Bullet 1 must start with ...`, `Bullet {i}: Remove trailing period`,
`Only {a}/{b} keywords found ...`) contains any of them, so the test is
equivalent to this constructor check. -/
def isSemanticErr : SumErr → Bool
  | SumErr.semantic _ _ => true
  | _ => false

/-- `SummaryValidator._calculate_score`.  The keyword bonus
`int(keywords_matched / max(total_keywords, 1) * 10)` truncates toward
zero; with `0 ≤ keywords_matched ≤ total_keywords` this is the natural
floor division `10 * matched / max(total, 1)` (the float quotient is exact
enough that truncation agrees with the rational floor at these scales). -/
def summaryCalcScore (errors : List SumErr) (warnings : List SumWarn)
    (keywords_matched total_keywords : Nat) : Int :=
  clampScore (100 - 20 * ((errors.filter (fun e => isSemanticErr e)).length : Int)
    - 15 * ((errors.filter (fun e => ¬ isSemanticErr e)).length : Int)
    - 5 * (warnings.length : Int)
    + ((10 * keywords_matched / max total_keywords 1 : Nat) : Int))

def enumFrom (i : Nat) : List α → List (Nat × α)
  | [] => []
  | x :: xs => (i, x) :: enumFrom (i + 1) xs

/-- `SummaryValidator.validate`. -/
def summaryValidate (cfg : SummaryConfig) (bullets_text : Str) (keywords : List Str)
    (context : Option SummaryValidationContext) : SummaryResult :=
  let bullets := parseSummaryBullets bullets_text
  let semErrs := match context with
    | none => []
    | some ctx => (enumFrom 1 bullets).filterMap (fun p =>
        (checkBulletSem ctx p.2).map (fun v => SumErr.semantic p.1 v))
  let countErrs := if bullets.length ≠ cfg.bullet_count then
      [SumErr.countMismatch cfg.bullet_count bullets.length] else []
  let perBulletErrs := (enumFrom 1 bullets).flatMap (fun p =>
    (if p.2.length < cfg.char_min ∨ p.2.length > cfg.char_max then
        [SumErr.charCount p.1 p.2.length cfg.char_min cfg.char_max] else []) ++
    (if p.1 = 1 ∧ ¬ firstBulletFmt p.2 then [SumErr.firstBulletFormat] else []) ++
    (if endsPeriod p.2 then [SumErr.trailingPeriod p.1] else []))
  let perBulletWarns := (enumFrom 1 bullets).flatMap (fun p =>
    if p.2.any (fun c => isDigitC c) then [] else [SumWarn.noNumbers p.1])
  let km := count_keyword_matches (List.intercalate (strL " ") bullets) keywords
  let kwErrs := if km < cfg.min_keywords then
      [SumErr.keywords km keywords.length cfg.min_keywords] else []
  let escWarns := if hasUnescapedSpecial none bullets_text then [SumWarn.escaping] else []
  let errors := semErrs ++ countErrs ++ perBulletErrs ++ kwErrs
  let warnings := perBulletWarns ++ escWarns
  { passed := errors.isEmpty
    errors := errors
    warnings := warnings
    score := summaryCalcScore errors warnings km keywords.length
    keywords_matched := km }

/-! ## Experience validator (`src/validators/experience_validator.py`) -/

inductive ExpErr where
  | bulletCount (minRequired found : Nat)
  | trailingPeriod (i : Nat)
  | keywords (found total required : Nat)
  | invalidFormat
deriving DecidableEq, Repr

inductive ExpWarn where
  | reduceBullets (maxAllowed found : Nat)
  | actionVerb (i : Nat)
  | metrics (i : Nat)
deriving DecidableEq, Repr

def resumeItemOpenTok : Str := strL "\\resumeItem" ++ [lbrace]

def textitOpenTok : Str := strL "\\textit" ++ [lbrace]

def textbfOpenTok : Str := strL "\\textbf" ++ [lbrace]

def textcolorOpenTok : Str := strL "\\textcolor" ++ [lbrace]

/-- `re.findall(r'\resumeItem\{(.*?)\}', text, re.DOTALL)` (exact case):
scan for the opening token, capture lazily to the first `}`, resume after
it; on failure advance one character. -/
def findResumeItems : Str → List Str
  | [] => []
  | c :: cs =>
    match h1 : splitPref exEq resumeItemOpenTok (c :: cs) with
    | none => findResumeItems cs
    | some mr =>
      match h2 : findSplit exEq [rbrace] mr.2 with
      | none => findResumeItems cs
      | some x => x.1 :: findResumeItems x.2.2
  termination_by s => s.length
  decreasing_by
  · simp
  · simp
  · obtain ⟨hd1, _⟩ := splitPref_decomp h1
    obtain ⟨hd2, hl2⟩ := findSplit_decomp h2
    have h5 : x.2.1.length = 1 := by rw [hl2]; rfl
    have hlen : (c :: cs).length = mr.1.length + (x.1.length + (x.2.1.length + x.2.2.length)) := by
      rw [hd1, hd2]
      simp [List.length_append]
    simp only [List.length_cons] at hlen ⊢
    omega

/-- `re.sub(tok + r'(.*?)\}', r'\1', s)` with exact case: used for the
`\textit{...}` and `\textbf{...}` wrappers. -/
def subWrap (tok : Str) : Str → Str
  | [] => []
  | c :: cs =>
    match h1 : splitPref exEq tok (c :: cs) with
    | none => c :: subWrap tok cs
    | some mr =>
      match h2 : findSplit exEq [rbrace] mr.2 with
      | none => c :: subWrap tok cs
      | some x => x.1 ++ subWrap tok x.2.2
  termination_by s => s.length
  decreasing_by
  · simp
  · simp
  · obtain ⟨hd1, _⟩ := splitPref_decomp h1
    obtain ⟨hd2, hl2⟩ := findSplit_decomp h2
    have h5 : x.2.1.length = 1 := by rw [hl2]; rfl
    have hlen : (c :: cs).length = mr.1.length + (x.1.length + (x.2.1.length + x.2.2.length)) := by
      rw [hd1, hd2]
      simp [List.length_append]
    simp only [List.length_cons] at hlen ⊢
    omega

/-- `re.sub(r'\\textcolor\{.*?\}\{(.*?)\}', r'\1', s)`: after
`\textcolor{`, the first lazy gap ends at the first `}{`, the capture at
the first `}` after that. -/
def subTextcolor : Str → Str
  | [] => []
  | c :: cs =>
    match h1 : splitPref exEq textcolorOpenTok (c :: cs) with
    | none => c :: subTextcolor cs
    | some mr =>
      match h2 : findSplit exEq [rbrace, lbrace] mr.2 with
      | none => c :: subTextcolor cs
      | some x =>
        match h3 : findSplit exEq [rbrace] x.2.2 with
        | none => c :: subTextcolor cs
        | some y => y.1 ++ subTextcolor y.2.2
  termination_by s => s.length
  decreasing_by
  · simp
  · simp
  · simp
  · obtain ⟨hd1, _⟩ := splitPref_decomp h1
    obtain ⟨hd2, hl2⟩ := findSplit_decomp h2
    obtain ⟨hd3, hl3⟩ := findSplit_decomp h3
    have h5 : x.2.1.length = 2 := by rw [hl2]; rfl
    have h6 : y.2.1.length = 1 := by rw [hl3]; rfl
    have hlen : (c :: cs).length =
        mr.1.length + (x.1.length + (x.2.1.length +
          (y.1.length + (y.2.1.length + y.2.2.length)))) := by
      rw [hd1, hd2, hd3]
      simp [List.length_append]
    simp only [List.length_cons] at hlen ⊢
    omega

/-- The cleaning applied to each `\resumeItem` capture: strip, then remove
`\textit{...}`, `\textbf{...}`, `\textcolor{...}{...}` wrappers keeping
their inner text, in source order. -/
def cleanExpBullet (b : Str) : Str :=
  subTextcolor (subWrap textbfOpenTok (subWrap textitOpenTok (stripWs b)))

/-- `ExperienceValidator._parse_bullets`. -/
def parseExpBullets (text : Str) : List Str :=
  (findResumeItems text).map cleanExpBullet

/-- The 23 strong action verbs of `ExperienceValidator.__init__`. -/
def actionVerbs : List Str :=
  [strL "led", strL "developed", strL "implemented", strL "designed", strL "built",
   strL "created", strL "managed", strL "delivered", strL "launched", strL "optimized",
   strL "improved", strL "reduced", strL "increased", strL "achieved", strL "established",
   strL "drove", strL "spearheaded", strL "facilitated", strL "deployed", strL "architected",
   strL "engineered", strL "collaborated", strL "coordinated"]

/-- `bullet.split()[0].lower() if bullet.split() else ""`: the first
whitespace-delimited word. -/
def firstWord (b : Str) : Str :=
  (spanP (fun c => ¬ isWsC c) (spanP isWsC b).2).1

/-- `ExperienceValidator._starts_with_action_verb`. -/
def startsWithActionVerb (b : Str) : Bool :=
  actionVerbs.any (fun v => ciStrEq v (firstWord b))

/-- `ExperienceValidator._contains_metrics`: the source tests the patterns
`\d+%`, `\d+\+`, `\d+[KMB]`, `\$\d+`, `\d+x`, `\d+` in turn; since the last
pattern is a bare `\d+` and each of the others requires a digit, the
disjunction holds iff the text contains a digit. -/
def containsMetrics (b : Str) : Bool := b.any (fun c => isDigitC c)

/-- `ExperienceValidator._check_latex_format`: both `\resumeSubheading` and
`\resumeItem` occur (exact case substring tests). -/
def expFormatOk (text : Str) : Bool :=
  containsEx text subheadingTok && containsEx text (strL "\\resumeItem")

structure ExpResult where
  passed : Bool
  errors : List ExpErr
  warnings : List ExpWarn
  score : Int
  keywords_matched : Nat

/-- `ExperienceValidator._calculate_score` (keyword bonus
`int(ratio * 15)` as the natural floor, cf. `summaryCalcScore`). -/
def expCalcScore (errors : List ExpErr) (warnings : List ExpWarn)
    (keywords_matched total_keywords bullet_count : Nat) : Int :=
  clampScore (100 - 15 * (errors.length : Int) - 5 * (warnings.length : Int)
    + ((15 * keywords_matched / max total_keywords 1 : Nat) : Int)
    + (if bullet_count = 5 then 5 else 0))

/-- `ExperienceValidator.validate` (min_bullets = 4, max_bullets = 6,
min_keywords = 3 from `__init__`). -/
def experienceValidate (experience_text : Str) (keywords : List Str) : ExpResult :=
  let bullets := parseExpBullets experience_text
  let countErrs := if bullets.length < 4 then [ExpErr.bulletCount 4 bullets.length] else []
  let countWarns := if ¬ bullets.length < 4 ∧ bullets.length > 6 then
      [ExpWarn.reduceBullets 6 bullets.length] else []
  let perBulletWarns := (enumFrom 1 bullets).flatMap (fun p =>
    (if startsWithActionVerb p.2 then [] else [ExpWarn.actionVerb p.1]) ++
    (if containsMetrics p.2 then [] else [ExpWarn.metrics p.1]))
  let perBulletErrs := (enumFrom 1 bullets).flatMap (fun p =>
    if endsPeriod p.2 then [ExpErr.trailingPeriod p.1] else [])
  let km := count_keyword_matches (List.intercalate (strL " ") bullets) keywords
  let kwErrs := if km < 3 then [ExpErr.keywords km keywords.length 3] else []
  let fmtErrs := if expFormatOk experience_text then [] else [ExpErr.invalidFormat]
  let errors := countErrs ++ perBulletErrs ++ kwErrs ++ fmtErrs
  let warnings := countWarns ++ perBulletWarns
  { passed := errors.isEmpty
    errors := errors
    warnings := warnings
    score := expCalcScore errors warnings km keywords.length bullets.length
    keywords_matched := km }

/-! ## Skills validator (`src/validators/skills_validator.py`) -/

inductive SkillErr where
  | keywords (found total required : Nat)
  | invalidFormat
deriving DecidableEq, Repr

inductive SkillWarn where
  | moreSkills (found recommendedMin : Nat)
  | fewerSkills (found recommendedMax : Nat)
  | categories
  | duplicates (dups : List Str)
deriving DecidableEq, Repr

/-- Split at `,`, `;` or `|` (Python `re.split(r'[,;|]', content)`). -/
def splitDelims : Str → List Str
  | [] => [[]]
  | c :: cs =>
    let r := splitDelims cs
    if c = ',' ∨ c = ';' ∨ c = '|' then [] :: r
    else
      match r with
      | [] => [[c]]
      | h :: t => (c :: h) :: t

/-- `SkillsValidator._parse_skills`: per line, strip, keep `\item` lines,
strip the rest, split on delimiters, strip each part, remove `\textbf` then
`\textit` wrappers, and keep parts that are non-empty and not `":"`. -/
def parseSkills (text : Str) : List Str :=
  (splitNl text).flatMap (fun line =>
    match splitPref exEq itemTok (stripWs line) with
    | none => []
    | some (_, rest) =>
      (splitDelims (stripWs rest)).filterMap (fun part =>
        let skill := subWrap textitOpenTok (subWrap textbfOpenTok (stripWs part))
        if skill ≠ [] ∧ skill ≠ [':'] then some skill else none))

/-- `re.search(r'\\textbf\{.*?:', text, re.IGNORECASE)`: without DOTALL the
lazy gap cannot cross a newline, so this holds iff some `\textbf{` is
followed by a `:` before the next newline. -/
def hasTextbfColon : Str → Bool
  | [] => false
  | c :: cs =>
    (match splitPref ciEq textbfOpenTok (c :: cs) with
     | some (_, r) => (spanP (fun x => ¬ (x = ':' ∨ x = '\n')) r).2.head? = some ':'
     | none => false) ||
    hasTextbfColon cs

/-- `SkillsValidator._has_categories`. -/
def hasCategories (text : Str) : Bool :=
  hasTextbfColon text ||
  containsCI text (strL "Languages:") ||
  containsCI text (strL "Frameworks:") ||
  containsCI text (strL "Tools:") ||
  containsCI text (strL "Technologies:")

/-- `SkillsValidator._check_latex_format`. -/
def skillsFormatOk (text : Str) : Bool :=
  containsEx text itemTok && (containsEx text (strL "\\section") || containsEx text beginItemizeTok)

/-- `SkillsValidator._find_duplicates`: a skill is a duplicate when its
lowered form was already seen. -/
def findDupAux (seen : List Str) : List Str → List Str
  | [] => []
  | s :: rest =>
    if seen.any (fun t => ciStrEq t s) then s :: findDupAux seen rest
    else findDupAux (s :: seen) rest

def findDuplicates (skills : List Str) : List Str := findDupAux [] skills

structure SkillsResult where
  passed : Bool
  errors : List SkillErr
  warnings : List SkillWarn
  score : Int
  keywords_matched : Nat

/-- `SkillsValidator._calculate_score` (keyword bonus `int(ratio * 20)` as
the natural floor, cf. `summaryCalcScore`). -/
def skillsCalcScore (errors : List SkillErr) (warnings : List SkillWarn)
    (keywords_matched total_keywords skill_count : Nat) : Int :=
  clampScore (100 - 15 * (errors.length : Int) - 5 * (warnings.length : Int)
    + ((20 * keywords_matched / max total_keywords 1 : Nat) : Int)
    + (if 12 ≤ skill_count ∧ skill_count ≤ 15 then 5 else 0))

/-- `SkillsValidator.validate` (min_skills = 8, max_skills = 20,
min_keywords = 3 from `__init__`). -/
def skillsValidate (skills_text : Str) (keywords : List Str) : SkillsResult :=
  let skills := parseSkills skills_text
  let countWarns :=
    if skills.length < 8 then [SkillWarn.moreSkills skills.length 8]
    else if skills.length > 20 then [SkillWarn.fewerSkills skills.length 20]
    else []
  let km := count_keyword_matches (List.intercalate (strL " ") skills) keywords
  let kwErrs := if km < 3 then [SkillErr.keywords km keywords.length 3] else []
  let catWarns := if hasCategories skills_text then [] else [SkillWarn.categories]
  let fmtErrs := if skillsFormatOk skills_text then [] else [SkillErr.invalidFormat]
  let dupWarns :=
    if findDuplicates skills = [] then [] else [SkillWarn.duplicates (findDuplicates skills)]
  let errors := kwErrs ++ fmtErrs
  let warnings := countWarns ++ catWarns ++ dupWarns
  { passed := errors.isEmpty
    errors := errors
    warnings := warnings
    score := skillsCalcScore errors warnings km keywords.length skills.length
    keywords_matched := km }

/-! ## Fallback metadata heuristics (`JDAnalyzer._get_default_metadata`) -/

/-- `any(term in jd_lower for term in terms)`. -/
def containsAnyCI (s : Str) (terms : List String) : Bool :=
  terms.any (fun t => containsCI s (strL t))

/-- The role-level detection of `_get_default_metadata`, in source order:
numeric-level phrase groups first, then word-based levels, defaulting to
`Mid`. -/
def defaultRoleLevel (jd : Str) : String :=
  if containsAnyCI jd ["engineer ii", "ii ", " ii,", "level ii", "level 2"] then "Mid"
  else if containsAnyCI jd ["engineer iii", "iii ", " iii,", "level iii", "level 3"] then "Senior"
  else if containsAnyCI jd ["engineer i ", " i ", " i,", "level i", "level 1", "junior", "entry"] then "Junior"
  else if containsAnyCI jd ["engineer iv", "iv ", " iv,", "staff", "principal"] then "Staff"
  else if containsAnyCI jd ["lead", "manager"] then "Lead"
  else if containsAnyCI jd ["senior", "sr."] then "Senior"
  else "Mid"

def isSepC (c : Char) : Bool := isWsC c || c = '-'

/-- Tail `\s*(\d+)?\s*(?:\+)?\s*years?` of the experience-years regex;
returns the optional second group on success. -/
def yearsTail (r : Str) : Option (Option Nat) :=
  let dg := spanP isDigitC (spanP isWsC r).2
  let r2 := (spanP isWsC dg.2).2
  let r3 := match r2 with
    | '+' :: t => (spanP isWsC t).2
    | _ => r2
  if hasPref ciEq (strL "year") r3 then
    some (if dg.1 = [] then none else some (natOfDigits dg.1))
  else none

/-- `(?:to|-)?` then the tail.  After the maximal `[\s-]+` run a `-` cannot
follow, so only the `to` alternative and the empty alternative are live. -/
def yearsAfterSep (r : Str) : Option (Option Nat) :=
  match splitPref ciEq (strL "to") r with
  | some (_, r2) =>
    match yearsTail r2 with
    | some g2 => some g2
    | none => yearsTail r
  | none => yearsTail r

/-- First match of `(\d+)[\s-]+(?:to|-)?\s*(\d+)?\s*(?:\+)?\s*years?`
(`_get_default_metadata`): group 1 becomes `experience_years_min`, the
optional group 2 `experience_years_max`. -/
def extractExpYears : Str → Option Nat × Option Nat
  | [] => (none, none)
  | c :: cs =>
    if isDigitC c then
      if (spanP isSepC (spanP isDigitC (c :: cs)).2).1 = [] then extractExpYears cs
      else
        match yearsAfterSep (spanP isSepC (spanP isDigitC (c :: cs)).2).2 with
        | some g2 => (some (natOfDigits (spanP isDigitC (c :: cs)).1), g2)
        | none => extractExpYears cs
    else extractExpYears cs

/-- The leadership-requirement detection of `_get_default_metadata`. -/
def defaultLeadershipRequired (jd : Str) : Bool :=
  containsAnyCI jd ["lead team", "manage team", "direct report", "people management"]

/-! ## Claim theorems -/

theorem clampScore_bounds (x : Int) : 0 ≤ clampScore x ∧ clampScore x ≤ 100 := by
  unfold clampScore
  omega

/-- C2: for every input to each of the three validators, the score of the
returned result is an integer in [0,100], whatever the error and warning
counts and keyword/count bonuses are. -/
theorem score_always_clamped (cfg : SummaryConfig) (t e s : Str) (kws : List Str)
    (ctx : Option SummaryValidationContext) :
    (0 ≤ (summaryValidate cfg t kws ctx).score ∧ (summaryValidate cfg t kws ctx).score ≤ 100) ∧
    (0 ≤ (experienceValidate e kws).score ∧ (experienceValidate e kws).score ≤ 100) ∧
    (0 ≤ (skillsValidate s kws).score ∧ (skillsValidate s kws).score ≤ 100) :=
  ⟨clampScore_bounds _, clampScore_bounds _, clampScore_bounds _⟩

/-- C3: for every input to each of the three validators, `passed` is true
iff the errors list is empty, regardless of warnings. -/
theorem passed_iff_no_errors (cfg : SummaryConfig) (t e s : Str) (kws : List Str)
    (ctx : Option SummaryValidationContext) :
    ((summaryValidate cfg t kws ctx).passed = true ↔ (summaryValidate cfg t kws ctx).errors = []) ∧
    ((experienceValidate e kws).passed = true ↔ (experienceValidate e kws).errors = []) ∧
    ((skillsValidate s kws).passed = true ↔ (skillsValidate s kws).errors = []) := by
  refine ⟨?_, ?_, ?_⟩ <;> simp [summaryValidate, experienceValidate, skillsValidate]

/-- C7 (failing input): the fallback resolver returns `"Mid"` for a job
description containing `engineer iii`, because the Mid marker
`'engineer ii'` is a substring of `'engineer iii'` and is checked first;
the claim (and the analyzer's own prompt table, which maps
`"Engineer III" → "Senior"`) expects `"Senior"`.  The other two parts of
the claim hold: `engineer ii` yields Mid and no marker defaults to Mid. -/
theorem fallback_role_level_engineer_iii :
    defaultRoleLevel (strL "we need an ai engineer iii for ml work") = "Mid" ∧
    defaultRoleLevel (strL "ai engineer ii opening") = "Mid" ∧
    defaultRoleLevel (strL "software developer role") = "Mid" := by
  refine ⟨?_, ?_, ?_⟩ <;> rfl

/-- C8 (failing input): the fallback years regex
`(\d+)[\s-]+(?:to|-)?\s*(\d+)?\s*(?:\+)?\s*years?` requires at least one
whitespace-or-dash character directly after the first number, so
`"5+ years"` produces no extraction at all (the claim expects min = 5);
`"3-5 years"` yields min 3, max 5 as the claim states. -/
theorem fallback_years_five_plus :
    extractExpYears (strL "requires 5+ years of python") = (none, none) ∧
    extractExpYears (strL "3-5 years experience") = (some 3, some 5) := by
  refine ⟨?_, ?_⟩ <;> rfl

/-- Rounding `num/den` to the nearest integer (ties up), as the claim's
`round` reads for the keyword bonus. -/
def roundNearest (num den : Nat) : Nat := (2 * num + den) / (2 * den)

/-- The claimed summary score: clamp of 100 minus 20 per semantic error,
15 per other error, 5 per warning, plus the keyword bonus *rounded to the
nearest integer*. -/
def claimedSummaryScore (r : SummaryResult) (totalKeywords : Nat) : Int :=
  clampScore (100 - 20 * ((r.errors.filter (fun e => isSemanticErr e)).length : Int)
    - 15 * ((r.errors.filter (fun e => ¬ isSemanticErr e)).length : Int)
    - 5 * (r.warnings.length : Int)
    + ((roundNearest (10 * r.keywords_matched) (max totalKeywords 1) : Nat) : Int))

/-- A four-bullet summary with four character-count errors, no warnings,
and 7 of 8 keywords matched. -/
def c4Text : Str :=
  strL "\\item Engineer with 5+ yrs a1\n\\item alpha beta 2\n\\item gamma delta 3\n\\item epsilon 4"

def c4Keywords : List Str :=
  [strL "engineer", strL "yrs", strL "alpha", strL "beta",
   strL "gamma", strL "delta", strL "epsilon", strL "zeta"]

/-- C4 (counterexample): at this input the validator's score is
`100 - 15*4 + int(7/8*10) = 40 + 8 = 48`, while the claimed formula with
round-to-nearest gives `40 + round(8.75) = 49`: the code truncates the
keyword bonus (`int(...)`), it does not round to the nearest integer. -/
theorem summary_score_not_round_nearest :
    (summaryValidate defaultSummaryConfig c4Text c4Keywords none).score = 48 ∧
    claimedSummaryScore (summaryValidate defaultSummaryConfig c4Text c4Keywords none)
      c4Keywords.length = 49 := by
  refine ⟨?_, ?_⟩ <;> rfl

/-- C4 (amended): the score equals the clamp of 100, minus 20 per semantic
error, minus 15 per other error, minus 5 per warning, plus the keyword
bonus truncated (floored) rather than rounded to nearest. -/
theorem summary_score_formula (cfg : SummaryConfig) (text : Str) (kws : List Str)
    (ctx : Option SummaryValidationContext) :
    (summaryValidate cfg text kws ctx).score =
      clampScore (100
        - 20 * (((summaryValidate cfg text kws ctx).errors.filter
            (fun e => isSemanticErr e)).length : Int)
        - 15 * (((summaryValidate cfg text kws ctx).errors.filter
            (fun e => ¬ isSemanticErr e)).length : Int)
        - 5 * (((summaryValidate cfg text kws ctx).warnings.length : Int))
        + ((10 * (summaryValidate cfg text kws ctx).keywords_matched / max kws.length 1 : Nat) :
            Int)) := rfl

/-- C6 (counterexample): `replace_summary_section` is not exception-free:
the replacement bullets are interpolated into the `re.sub` replacement
template, so a bullet containing `\gamma` makes CPython parse `\g` not
followed by `<` and raise `re.error("missing <")` — even on an empty
document with no match at all. -/
theorem replace_summary_raises :
    replace_summary_section [] [strL "uses \\gamma factor"] = Except.error "missing <" := rfl

/-- A document whose summary anchor is well formed (marker, heading, and an
itemize block with one non-empty `\item`), but whose itemize content starts
on the `\begin{itemize}` line. -/
def c1Doc : Str := strL "%--SUMMARY--\n\\section{Summary}\n\\begin{itemize} \\item a\n\\end{itemize}\n"

/-- What the round trip produces on `c1Doc`. -/
def c1DocOut : Str :=
  strL "%--SUMMARY--\n\\section{Summary}\n\\begin{itemize} \\item a\n\\item a\n\\end{itemize}\n"

/-- C1 (counterexample): on `c1Doc` extraction yields the single bullet
`"a"`, but replacement keeps the `\item a` sitting on the
`\begin{itemize}` line (the replace pattern's group 1 ends only at the
first newline) and inserts the rebuilt line after it, so the bullet is
duplicated: re-extracting from the output yields `["a", "a"]`.  The round
trip is not textually equivalent to the original modulo rebuilt `\item`
formatting — it changes the extracted content itself. -/
theorem summary_roundtrip_duplicates_bullet :
    extract_summary_section c1Doc = some [strL "a"] ∧
    replace_summary_section c1Doc [strL "a"] = Except.ok c1DocOut ∧
    extract_summary_section c1DocOut = some [strL "a", strL "a"] :=
  ⟨rfl, rfl, rfl⟩

theorem dropWhile_exists_not {p : Char → Bool} {l : Str} (h : l.dropWhile p ≠ []) :
    ∃ c ∈ l.dropWhile p, p c = false := by
  induction l with
  | nil => simp at h
  | cons c cs ih =>
    by_cases hp : p c
    · rw [List.dropWhile_cons_of_pos hp] at h ⊢
      exact ih h
    · rw [List.dropWhile_cons_of_neg hp] at h ⊢
      exact ⟨c, List.mem_cons_self .., Bool.eq_false_iff.mpr hp⟩

theorem stripWs_exists_not_ws {b : Str} (h : stripWs b ≠ []) :
    ∃ c ∈ stripWs b, isWsC c = false := by
  unfold stripWs at h ⊢
  have h2 : (b.dropWhile (fun c => isWsC c)).reverse.dropWhile (fun c => isWsC c) ≠ [] := by
    intro hx
    rw [hx] at h
    exact h rfl
  obtain ⟨c, hmem, hc⟩ := dropWhile_exists_not h2
  exact ⟨c, List.mem_reverse.mpr hmem, hc⟩

theorem cleanBullet_nonblank {b s : Str} (h : cleanBullet b = some s) :
    ∃ c ∈ s, isWsC c = false := by
  unfold cleanBullet at h
  by_cases hs : stripWs b = []
  · rw [if_pos hs] at h
    cases h
  · rw [if_neg hs] at h
    obtain ⟨c, hmem, hc⟩ := stripWs_exists_not_ws hs
    have hcn : c ≠ '\n' := by
      intro hx
      rw [hx] at hc
      simp [isWsC] at hc
    refine ⟨c, ?_, hc⟩
    have := Option.some.injEq .. ▸ h
    rw [← this]
    refine List.mem_map.mpr ⟨c, hmem, ?_⟩
    rw [if_neg hcn]

/-- C10: `extract_summary_section` returns either `None` or a non-empty
list of non-blank bullets (each contains a non-whitespace character); in
particular a matching anchor whose itemize body has no non-empty `\item`
yields `None`, never an empty list. -/
theorem extract_none_or_nonblank (doc : Str) :
    extract_summary_section doc = none ∨
    ∃ l, extract_summary_section doc = some l ∧ l ≠ [] ∧
      ∀ b ∈ l, ∃ c ∈ b, isWsC c = false := by
  cases h1 : findAnchor doc with
  | none => exact Or.inl (by simp only [extract_summary_section, h1])
  | some x1 =>
    obtain ⟨a0, m0, r1⟩ := x1
    cases h2 : findSplit ciEq sectionSummaryTok r1 with
    | none => exact Or.inl (by simp only [extract_summary_section, h1, h2])
    | some x2 =>
      obtain ⟨a2, m2, r2⟩ := x2
      cases h3 : findSplit ciEq beginItemizeTok r2 with
      | none => exact Or.inl (by simp only [extract_summary_section, h1, h2, h3])
      | some x3 =>
        obtain ⟨a3, m3, r3⟩ := x3
        cases h4 : findSplit ciEq endItemizeTok r3 with
        | none => exact Or.inl (by simp only [extract_summary_section, h1, h2, h3, h4])
        | some x4 =>
          obtain ⟨body, m4, r4⟩ := x4
          by_cases hc : (parseItems body).filterMap cleanBullet = []
          · exact Or.inl (by simp only [extract_summary_section, h1, h2, h3, h4]; simp [hc])
          · right
            refine ⟨(parseItems body).filterMap cleanBullet, ?_, hc, ?_⟩
            · simp only [extract_summary_section, h1, h2, h3, h4]
              simp [hc]
            · intro b hb
              obtain ⟨a, _, ha⟩ := List.mem_filterMap.mp hb
              exact cleanBullet_nonblank ha

/-- C9: `ExperienceValidator.validate` records a bullet-count error iff
fewer than 4 bullets parse, and a bullet-count warning (never an error)
iff more than 6 parse; 4..6 bullets produce neither. -/
theorem exp_bullet_count_rules (text : Str) (kws : List Str) :
    ((∃ m n, ExpErr.bulletCount m n ∈ (experienceValidate text kws).errors) ↔
      (parseExpBullets text).length < 4) ∧
    ((∃ m n, ExpWarn.reduceBullets m n ∈ (experienceValidate text kws).warnings) ↔
      6 < (parseExpBullets text).length) := by
  constructor
  · constructor
    · rintro ⟨m, n, hm⟩
      simp only [experienceValidate, List.mem_append] at hm
      rcases hm with ((hm | hm) | hm) | hm
      · by_cases h : (parseExpBullets text).length < 4
        · exact h
        · rw [if_neg h] at hm
          simp at hm
      · exfalso
        rw [List.mem_flatMap] at hm
        obtain ⟨p, _, hp⟩ := hm
        by_cases he : endsPeriod p.2
        · rw [if_pos he] at hp
          simp at hp
        · rw [if_neg he] at hp
          simp at hp
      · exfalso
        by_cases h : count_keyword_matches
            (List.intercalate (strL " ") (parseExpBullets text)) kws < 3
        · rw [if_pos h] at hm
          simp at hm
        · rw [if_neg h] at hm
          simp at hm
      · exfalso
        by_cases h : expFormatOk text = true
        · rw [if_pos h] at hm
          simp at hm
        · rw [if_neg h] at hm
          simp at hm
    · intro h
      refine ⟨4, (parseExpBullets text).length, ?_⟩
      simp only [experienceValidate, List.mem_append]
      left
      left
      left
      rw [if_pos h]
      simp
  · constructor
    · rintro ⟨m, n, hm⟩
      simp only [experienceValidate, List.mem_append] at hm
      rcases hm with hm | hm
      · by_cases h : ¬ (parseExpBullets text).length < 4 ∧ (parseExpBullets text).length > 6
        · exact h.2
        · rw [if_neg h] at hm
          simp at hm
      · exfalso
        rw [List.mem_flatMap] at hm
        obtain ⟨p, _, hp⟩ := hm
        rw [List.mem_append] at hp
        rcases hp with hp | hp
        · by_cases hv : startsWithActionVerb p.2 = true
          · rw [if_pos hv] at hp
            simp at hp
          · rw [if_neg hv] at hp
            simp at hp
        · by_cases hmt : containsMetrics p.2 = true
          · rw [if_pos hmt] at hp
            simp at hp
          · rw [if_neg hmt] at hp
            simp at hp
    · intro h
      refine ⟨6, (parseExpBullets text).length, ?_⟩
      simp only [experienceValidate, List.mem_append]
      left
      rw [if_pos ⟨by omega, h⟩]
      simp

theorem enumFrom_mem_of_get {l : List α} {i : Nat} {x : α} (k : Nat)
    (h : l.get? i = some x) : (k + i, x) ∈ enumFrom k l := by
  induction l generalizing i k with
  | nil => simp at h
  | cons a as ih =>
    cases i with
    | zero =>
      simp only [List.get?] at h
      cases h
      simp [enumFrom]
    | succ i =>
      simp only [List.get?] at h
      have := ih (k + 1) h
      simp only [enumFrom, List.mem_cons]
      right
      have harith : k + 1 + i = k + (i + 1) := by omega
      rw [harith] at this
      exact this

theorem enumFrom_mem_inv {l : List α} {k j : Nat} {x : α}
    (h : (j, x) ∈ enumFrom k l) : ∃ i, j = k + i ∧ l.get? i = some x := by
  induction l generalizing k with
  | nil => simp [enumFrom] at h
  | cons a as ih =>
    simp only [enumFrom, List.mem_cons] at h
    rcases h with h | h
    · obtain ⟨h1, h2⟩ := Prod.mk.injEq .. ▸ h
      exact ⟨0, by omega, by simp [← h2]⟩
    · obtain ⟨i, hi, hg⟩ := ih h
      exact ⟨i + 1, by omega, by simpa using hg⟩

theorem checkExpCeiling_ne_company {ctx : SummaryValidationContext} {b : Str} {n : Str} :
    checkExpCeiling ctx b ≠ some (SemViol.company n) := by
  unfold checkExpCeiling
  cases ctx.max_experience_years with
  | none => simp
  | some my =>
    cases expYearsScan b with
    | none => simp
    | some y =>
      dsimp only
      by_cases hy : y > my
      · rw [if_pos hy]
        simp
      · rw [if_neg hy]
        simp

theorem checkBulletSem_company_iff {ctx : SummaryValidationContext} {b : Str} {n : Str} :
    checkBulletSem ctx b = some (SemViol.company n) ↔
      ctx.company_names.find? (fun x => companyMatch x b) = some n := by
  unfold checkBulletSem
  cases hf : ctx.company_names.find? (fun x => companyMatch x b) with
  | some n0 => simp
  | none =>
    dsimp only
    constructor
    · intro h
      exfalso
      by_cases hl : ctx.leadership_allowed
      · rw [if_pos hl] at h
        exact checkExpCeiling_ne_company h
      · rw [if_neg hl] at h
        cases hv : leadershipVerbs.find? (fun v => wholeWordCI v b) with
        | some v =>
          rw [hv] at h
          simp at h
        | none =>
          rw [hv] at h
          exact checkExpCeiling_ne_company h
    · intro h
      cases h

/-- C5: with a context supplied, a configured company name occurring as a
case-insensitive whole word in bullet `i` makes `validate` record a
company-name error for that bullet (possibly citing an earlier configured
name, since the per-bullet check stops at the first match); and when no
configured name matches any of the three company patterns in the bullet,
no company-name error is recorded for it — in particular a substring
occurrence that is not a whole word (`"R37"` inside `"R37x"`) raises
nothing. -/
theorem summary_company_name_rule (cfg : SummaryConfig) (text : Str) (kws : List Str)
    (ctx : SummaryValidationContext) (i : Nat) (b : Str)
    (hb : (parseSummaryBullets text).get? i = some b) :
    ((∃ name ∈ ctx.company_names, wholeWordCI name b = true) →
      ∃ n, SumErr.semantic (i + 1) (SemViol.company n) ∈
        (summaryValidate cfg text kws (some ctx)).errors) ∧
    ((∀ name ∈ ctx.company_names, companyMatch name b = false) →
      ∀ n, SumErr.semantic (i + 1) (SemViol.company n) ∉
        (summaryValidate cfg text kws (some ctx)).errors) := by
  constructor
  · rintro ⟨name, hmem, hww⟩
    have hcm : companyMatch name b = true := by
      unfold companyMatch
      rw [hww]
      simp
    have hsome : (ctx.company_names.find? (fun x => companyMatch x b)).isSome := by
      rw [List.find?_isSome]
      exact ⟨name, hmem, hcm⟩
    obtain ⟨n0, hn0⟩ := Option.isSome_iff_exists.mp hsome
    refine ⟨n0, ?_⟩
    simp only [summaryValidate, List.mem_append]
    left
    left
    left
    refine List.mem_filterMap.mpr ⟨(i + 1, b), ?_, ?_⟩
    · have := enumFrom_mem_of_get 1 hb
      rw [Nat.add_comm] at this
      exact this
    · rw [checkBulletSem_company_iff.mpr hn0]
      rfl
  · intro hno n hm
    simp only [summaryValidate, List.mem_append] at hm
    rcases hm with ((hm | hm) | hm) | hm
    · obtain ⟨p, hp, hmap⟩ := List.mem_filterMap.mp hm
      rw [Option.map_eq_some'] at hmap
      obtain ⟨v, hv, heq⟩ := hmap
      obtain ⟨hidx, hval⟩ := SumErr.semantic.injEq .. ▸ heq
      obtain ⟨i', hi', hg⟩ := enumFrom_mem_inv hp
      have hii : i' = i := by omega
      subst hii
      rw [hb] at hg
      have hbb : p.2 = b := by
        have := Option.some.injEq .. ▸ hg
        exact this.symm
      rw [hbb] at hv
      rw [hval] at hv
      have hfind := checkBulletSem_company_iff.mp hv
      have hpn : companyMatch n b = true := by
        have := List.find?_some hfind
        simpa using this
      have hnmem : n ∈ ctx.company_names := List.mem_of_find?_eq_some hfind
      rw [hno n hnmem] at hpn
      cases hpn
    · by_cases h : (parseSummaryBullets text).length ≠ cfg.bullet_count
      · rw [if_pos h] at hm
        simp at hm
      · rw [if_neg h] at hm
        simp at hm
    · rw [List.mem_flatMap] at hm
      obtain ⟨p, _, hp⟩ := hm
      rw [List.mem_append, List.mem_append] at hp
      rcases hp with (hp | hp) | hp
      · by_cases h : p.2.length < cfg.char_min ∨ p.2.length > cfg.char_max
        · rw [if_pos h] at hp
          simp at hp
        · rw [if_neg h] at hp
          simp at hp
      · by_cases h : p.1 = 1 ∧ ¬ firstBulletFmt p.2 = true
        · rw [if_pos h] at hp
          simp at hp
        · rw [if_neg h] at hp
          simp at hp
      · by_cases h : endsPeriod p.2 = true
        · rw [if_pos h] at hp
          simp at hp
        · rw [if_neg h] at hp
          simp at hp
    · by_cases h : count_keyword_matches
        (List.intercalate (strL " ") (parseSummaryBullets text)) kws < cfg.min_keywords
      · rw [if_pos h] at hm
        simp at hm
      · rw [if_neg h] at hm
        simp at hm

def c5Ctx : SummaryValidationContext :=
  { company_names := [strL "R37"]
    role_level := strL "Mid"
    max_experience_years := none
    leadership_allowed := true }

def c5Text : Str := strL "\\item Work at R37 daily 1\n\\item Shipped R37x pipelines 2"

/-- Witness for C5: the whole-word occurrence of `R37` in bullet 1 yields a
company-name error; the `R37x` substring occurrence in bullet 2 yields
none. -/
theorem summary_company_name_rule_witness :
    (∃ n, SumErr.semantic 1 (SemViol.company n) ∈
        (summaryValidate defaultSummaryConfig c5Text [] (some c5Ctx)).errors) ∧
    (∀ n, SumErr.semantic 2 (SemViol.company n) ∉
        (summaryValidate defaultSummaryConfig c5Text [] (some c5Ctx)).errors) :=
  ⟨(summary_company_name_rule defaultSummaryConfig c5Text [] c5Ctx 0
      (strL "Work at R37 daily 1") (by decide)).1
      ⟨strL "R37", by decide, by decide⟩,
   (summary_company_name_rule defaultSummaryConfig c5Text [] c5Ctx 1
      (strL "Shipped R37x pipelines 2") (by decide)).2
      (by decide)⟩

/-! ### String-scanning lemmas for the canonical-document theorems -/

theorem charToNat_inj {a b : Char} (h : a.toNat = b.toNat) : a = b :=
  Char.eq_of_val_eq (UInt32.ext h)

theorem ciEq_refl (c : Char) : ciEq c c = true := by
  simp [ciEq]

theorem ciEq_backslash_iff (c : Char) : ciEq '\\' c = true ↔ c = '\\' := by
  constructor
  · intro h
    simp only [ciEq, decide_eq_true_eq] at h
    have hl : lowerN '\\' = 92 := rfl
    have h92 : '\\'.toNat = 92 := rfl
    rw [hl] at h
    unfold lowerN at h
    split_ifs at h with h1
    · omega
    · exact charToNat_inj (by omega)
  · intro h
    subst h
    exact ciEq_refl _

theorem splitPref_refl_ci (pat r : Str) : splitPref ciEq pat (pat ++ r) = some (pat, r) := by
  induction pat with
  | nil => rfl
  | cons p ps ih =>
    simp only [List.cons_append, splitPref, ciEq_refl, if_true, List.append_eq, ih,
      Option.map_some']

theorem spanP_exact {p : Char → Bool} {l s : Str} (hl : ∀ c ∈ l, p c = true)
    (hs : ∀ c, s.head? = some c → p c = false) : spanP p (l ++ s) = (l, s) := by
  induction l with
  | nil =>
    cases s with
    | nil => rfl
    | cons c cs =>
      have := hs c rfl
      simp only [List.nil_append, spanP, this]
      simp
  | cons a l ih =>
    have ha := hl a (List.mem_cons_self ..)
    simp only [List.cons_append, spanP, ha, if_true, List.append_eq]
    rw [ih (fun c hc => hl c (List.mem_cons_of_mem _ hc))]

theorem findSplit_of_here {eq : Char → Char → Bool} {pat s m r : Str}
    (h : splitPref eq pat s = some (m, r)) : findSplit eq pat s = some ([], m, r) := by
  cases s with
  | nil =>
    simp only [findSplit, h, Option.map_some']
  | cons c cs =>
    simp only [findSplit, h]

theorem findSplit_cons_of_none {eq : Char → Char → Bool} {pat : Str} {c : Char} {cs b m r : Str}
    (h1 : splitPref eq pat (c :: cs) = none) (h2 : findSplit eq pat cs = some (b, m, r)) :
    findSplit eq pat (c :: cs) = some (c :: b, m, r) := by
  simp only [findSplit, h1, h2, Option.map_some']

theorem findSplit_skip_chars {eq : Char → Char → Bool} {p0 : Char} {pt blk t b m r : Str}
    (hblk : ∀ c ∈ blk, eq p0 c = false)
    (h : findSplit eq (p0 :: pt) t = some (b, m, r)) :
    findSplit eq (p0 :: pt) (blk ++ t) = some (blk ++ b, m, r) := by
  induction blk with
  | nil => simpa using h
  | cons c blk ih =>
    have hc := hblk c (List.mem_cons_self ..)
    have hnone : splitPref eq (p0 :: pt) (c :: (blk ++ t)) = none := by
      simp only [splitPref, hc]
      rfl
    simp only [List.cons_append]
    exact findSplit_cons_of_none hnone (ih (fun c hc => hblk c (List.mem_cons_of_mem _ hc)))

theorem matchAnchorHead_none_of_head {c : Char} {cs : Str} (h : c ≠ '%') :
    matchAnchorHead (c :: cs) = none := by
  simp only [matchAnchorHead]
  rw [if_neg h]

/-- The canonical `%-+SUMMARY-+` anchor text. -/
def anchorChars (d1 d2 : Nat) : Str :=
  '%' :: (List.replicate d1 '-' ++ strL "SUMMARY" ++ List.replicate d2 '-')

theorem splitPref_summary (x : Str) :
    splitPref ciEq (strL "summary") (strL "SUMMARY" ++ x) = some (strL "SUMMARY", x) := rfl

theorem matchAnchorHead_canonical {d1 d2 : Nat} (h1 : 0 < d1) (h2 : 0 < d2) {rest : Str}
    (hr : rest.head? ≠ some '-') :
    matchAnchorHead (anchorChars d1 d2 ++ rest) = some (anchorChars d1 d2, rest) := by
  have hdash : ∀ t : Str, t.head? ≠ some '-' →
      ∀ c, t.head? = some c → (fun x => decide (x = '-')) c = false := by
    intro t ht c hc
    simp only [decide_eq_false_iff_not]
    intro hx
    rw [hx] at hc
    exact ht hc
  have hs1 : spanP (fun x => x = '-')
      (List.replicate d1 '-' ++ (strL "SUMMARY" ++ (List.replicate d2 '-' ++ rest))) =
      (List.replicate d1 '-', strL "SUMMARY" ++ (List.replicate d2 '-' ++ rest)) := by
    refine spanP_exact (fun c hc => ?_) (hdash _ (by simp [strL]) )
    rw [List.eq_of_mem_replicate hc]
    simp
  have hs2 : spanP (fun x => x = '-') (List.replicate d2 '-' ++ rest) =
      (List.replicate d2 '-', rest) := by
    refine spanP_exact (fun c hc => ?_) (hdash _ hr)
    rw [List.eq_of_mem_replicate hc]
    simp
  have hrep1 : List.replicate d1 '-' ≠ [] := by
    simp only [ne_eq, List.replicate_eq_nil]
    omega
  have hrep2 : List.replicate d2 '-' ≠ [] := by
    simp only [ne_eq, List.replicate_eq_nil]
    omega
  show matchAnchorHead ('%' :: (List.replicate d1 '-' ++ strL "SUMMARY" ++ List.replicate d2 '-'
      ++ rest)) = _
  simp only [matchAnchorHead, if_pos rfl, List.append_assoc]
  rw [hs1]
  dsimp only
  rw [if_neg hrep1]
  rw [splitPref_summary]
  dsimp only
  rw [hs2]
  dsimp only
  rw [if_neg hrep2]
  simp [anchorChars, List.append_assoc]

theorem findAnchor_of_head {s a r : Str} (h : matchAnchorHead s = some (a, r)) :
    findAnchor s = some ([], a, r) := by
  cases s with
  | nil => simp [matchAnchorHead] at h
  | cons c cs => simp only [findAnchor, h]

theorem findAnchor_skip {pre s : Str} (h : ∀ c ∈ pre, c ≠ '%') {a m r : Str}
    (hs : findAnchor s = some (a, m, r)) : findAnchor (pre ++ s) = some (pre ++ a, m, r) := by
  induction pre with
  | nil => simpa using hs
  | cons c pre ih =>
    have hc := h c (List.mem_cons_self ..)
    have hnone : matchAnchorHead (c :: (pre ++ s)) = none := matchAnchorHead_none_of_head hc
    simp only [List.cons_append, findAnchor, List.append_eq, hnone]
    rw [ih (fun x hx => h x (List.mem_cons_of_mem _ hx))]
    rfl

/-- The itemize body of a canonical summary block: one `\item b` line per
bullet. -/
def itemsOf (bullets : List Str) : Str :=
  bullets.flatMap (fun b => itemTok ++ ' ' :: (b ++ ['\n']))

/-- Bullets admissible in a canonical block: non-empty, free of backslashes
and newlines, and stripped (no leading/trailing whitespace). -/
def safeBullet (b : Str) : Prop :=
  b ≠ [] ∧ (∀ c ∈ b, c ≠ '\\' ∧ c ≠ '\n') ∧
    isWsC (b.headD ' ') = false ∧ isWsC (b.getLastD ' ') = false

instance (b : Str) : Decidable (safeBullet b) := by
  unfold safeBullet
  infer_instance

theorem itemTok_chars : itemTok = ['\\', 'i', 't', 'e', 'm'] := rfl

theorem splitPref_itemTok_none {c : Char} {x : Str} (h : c ≠ '\\') :
    splitPref ciEq itemTok (c :: x) = none := by
  rw [itemTok_chars]
  simp only [splitPref]
  rw [if_neg]
  intro hx
  exact h ((ciEq_backslash_iff c).mp hx)

theorem hasPref_itemTok_false {c : Char} {x : Str} (h : c ≠ '\\') :
    hasPref ciEq itemTok (c :: x) = false := by
  simp [hasPref, splitPref_itemTok_none h]

theorem captureUntil_skip {b t : Str} (hb : ∀ c ∈ b, c ≠ '\\' ∧ c ≠ '\n') :
    captureUntil (b ++ t) = (b ++ (captureUntil t).1, (captureUntil t).2) := by
  induction b with
  | nil => simp
  | cons c b ih =>
    obtain ⟨hbs, hnl⟩ := hb c (List.mem_cons_self ..)
    simp only [List.cons_append, captureUntil]
    rw [if_neg (by simp [hasPref_itemTok_false hbs]), if_neg (by simp [hnl])]
    simp only [List.append_eq]
    rw [ih (fun x hx => hb x (List.mem_cons_of_mem _ hx))]

theorem captureUntil_final_nl : captureUntil ['\n'] = ([], ['\n']) := rfl

theorem captureUntil_nl_item {rest : Str} (h : hasPref ciEq itemTok rest = true) :
    captureUntil ('\n' :: rest) = (['\n'], rest) := by
  have hrest : rest ≠ [] := by
    intro hx
    rw [hx] at h
    simp [hasPref, itemTok_chars, splitPref] at h
  simp only [captureUntil]
  rw [if_neg (by simp [hasPref_itemTok_false (by decide : ('\n' : Char) ≠ '\\')]),
      if_neg (by simp [hrest])]
  cases hr : rest with
  | nil => exact absurd hr hrest
  | cons c cs =>
    rw [← hr]
    have : captureUntil rest = ([], rest) := by
      rw [hr]
      simp only [captureUntil]
      rw [if_pos (by rw [← hr]; exact h)]
    rw [this]

theorem parseItems_nil : parseItems [] = [] := rfl

theorem parseItems_cons_of_none {c : Char} {cs : Str}
    (h : splitPref ciEq itemTok (c :: cs) = none) :
    parseItems (c :: cs) = parseItems cs := by
  unfold parseItems
  simp only [List.length_cons, parseItemsF, h]

theorem parseItems_cons_match {c : Char} {cs : Str} {mr : Str × Str}
    (h : splitPref ciEq itemTok (c :: cs) = some mr)
    (hw : (spanP isWsC mr.2).1 ≠ []) :
    parseItems (c :: cs) = (captureUntil (spanP isWsC mr.2).2).1 ::
      parseItems (captureUntil (spanP isWsC mr.2).2).2 := by
  have hle : (captureUntil (spanP isWsC mr.2).2).2.length ≤ cs.length := by
    obtain ⟨hd, hl⟩ := splitPref_decomp h
    have hsd := spanP_decomp isWsC mr.2
    have hcu := captureUntil_decomp (spanP isWsC mr.2).2
    have hlen1 := congrArg List.length hd
    have hlen2 := congrArg List.length hsd
    have hlen3 := congrArg List.length hcu
    have hml : 0 < mr.1.length := by
      rw [hl]
      decide
    simp only [List.length_cons, List.length_append] at hlen1 hlen2 hlen3
    omega
  unfold parseItems
  simp only [List.length_cons, parseItemsF, h]
  rw [if_neg hw]
  exact congrArg _ (parseItemsF_congr hle le_rfl)

/-- The raw captures `findall` produces on a canonical body: every bullet
keeps its following newline except the last (the `$` lookahead stops just
before the final newline). -/
def rawOf : List Str → List Str
  | [] => []
  | [b] => [b]
  | b :: bs => (b ++ ['\n']) :: rawOf bs

theorem parseItems_itemsOf : ∀ (bullets : List Str), (∀ b ∈ bullets, safeBullet b) →
    parseItems (itemsOf bullets) = rawOf bullets := by
  intro bullets
  induction bullets with
  | nil => intro _; rfl
  | cons b bs ih =>
    intro hsafe
    obtain ⟨hne, hchars, hhead, _⟩ := hsafe b (List.mem_cons_self ..)
    have hitems : itemsOf (b :: bs) =
        '\\' :: 'i' :: 't' :: 'e' :: 'm' :: ' ' :: (b ++ '\n' :: itemsOf bs) := by
      simp [itemsOf, itemTok_chars, List.flatMap_cons]
    rw [hitems]
    have hsp : splitPref ciEq itemTok
        ('\\' :: 'i' :: 't' :: 'e' :: 'm' :: ' ' :: (b ++ '\n' :: itemsOf bs)) =
        some (['\\', 'i', 't', 'e', 'm'], ' ' :: (b ++ '\n' :: itemsOf bs)) := rfl
    obtain ⟨hb0, hbtail⟩ : ∃ hb0 btail, b = hb0 :: btail := by
      cases b with
      | nil => exact absurd rfl hne
      | cons x xs => exact ⟨x, xs, rfl⟩
    obtain ⟨btail, hbeq⟩ := hbtail
    have hheadb : isWsC hb0 = false := by
      rw [hbeq] at hhead
      simpa using hhead
    have hspan : spanP isWsC (' ' :: (b ++ '\n' :: itemsOf bs)) =
        ([' '], b ++ '\n' :: itemsOf bs) := by
      have : (' ' :: (b ++ '\n' :: itemsOf bs)) = [' '] ++ (b ++ '\n' :: itemsOf bs) := rfl
      rw [this]
      refine spanP_exact (by simp [isWsC]) ?_
      intro c hc
      rw [hbeq] at hc
      simp only [List.cons_append, List.head?_cons, Option.some.injEq] at hc
      rw [← hc]
      exact hheadb
    rw [parseItems_cons_match hsp (by rw [hspan]; simp)]
    rw [hspan]
    dsimp only
    rw [captureUntil_skip hchars]
    cases bs with
    | nil =>
      simp only [itemsOf, List.flatMap_nil, captureUntil_final_nl]
      have : parseItems ['\n'] = [] := by
        rw [parseItems_cons_of_none (splitPref_itemTok_none (by decide))]
        rfl
      rw [this]
      simp [rawOf]
    | cons b2 bs2 =>
      have hpref : hasPref ciEq itemTok (itemsOf (b2 :: bs2)) = true := by
        have : itemsOf (b2 :: bs2) = itemTok ++ (' ' :: (b2 ++ ['\n']) ++ itemsOf bs2) := by
          simp [itemsOf, List.flatMap_cons, List.append_assoc]
        rw [this]
        simp [hasPref, splitPref_refl_ci]
      rw [captureUntil_nl_item hpref]
      dsimp only
      rw [ih (fun x hx => hsafe x (List.mem_cons_of_mem _ hx))]
      rfl

theorem dropWhile_of_head_neg {p : Char → Bool} {l : Str} {c : Char}
    (h : l.head? = some c) (hc : p c = false) : l.dropWhile p = l := by
  cases l with
  | nil => rfl
  | cons a l =>
    have ha : a = c := by simpa using h
    subst ha
    exact List.dropWhile_cons_of_neg (by simp [hc])

theorem getLast_not_ws {b : Str} (hne : b ≠ []) (hlast : isWsC (b.getLastD ' ') = false) :
    ∀ c, b.getLast? = some c → isWsC c = false := by
  intro c hc
  have := List.getLastD_eq_getLast? ' ' b
  rw [hc] at this
  simp only [Option.getD_some] at this
  rw [← this]
  exact hlast

theorem dropWhile_ws_safe {b : Str} (hne : b ≠ []) (hhead : isWsC (b.headD ' ') = false) :
    b.dropWhile (fun c => isWsC c) = b := by
  cases b with
  | nil => rfl
  | cons a l =>
    apply List.dropWhile_cons_of_neg
    simpa using hhead

theorem dropWhile_ws_rev_safe {b : Str} (hne : b ≠ []) (hlast : isWsC (b.getLastD ' ') = false) :
    b.reverse.dropWhile (fun c => isWsC c) = b.reverse := by
  cases hr : b.reverse with
  | nil => rfl
  | cons a l =>
    apply List.dropWhile_cons_of_neg
    have ha : b.getLast? = some a := by rw [← List.head?_reverse, hr]; rfl
    simpa using getLast_not_ws hne hlast a ha

theorem stripWs_safe {b : Str} (hs : safeBullet b) : stripWs b = b := by
  obtain ⟨hne, hchars, hhead, hlast⟩ := hs
  unfold stripWs
  rw [dropWhile_ws_safe hne hhead, dropWhile_ws_rev_safe hne hlast, List.reverse_reverse]

theorem stripWs_safe_nl {b : Str} (hs : safeBullet b) : stripWs (b ++ ['\n']) = b := by
  obtain ⟨hne, hchars, hhead, hlast⟩ := hs
  unfold stripWs
  have hd : (b ++ ['\n']).dropWhile (fun c => isWsC c) = b ++ ['\n'] := by
    cases b with
    | nil => exact absurd rfl hne
    | cons a l =>
      apply List.dropWhile_cons_of_neg
      simpa using hhead
  rw [hd]
  have hrev : (b ++ ['\n']).reverse = '\n' :: b.reverse := by simp
  rw [hrev, List.dropWhile_cons_of_pos (by simp [isWsC]),
    dropWhile_ws_rev_safe hne hlast, List.reverse_reverse]

theorem cleanBullet_safe {b : Str} (hs : safeBullet b) : cleanBullet b = some b := by
  unfold cleanBullet
  rw [stripWs_safe hs]
  rw [if_neg hs.1]
  congr 1
  have : ∀ c ∈ b, (if c = '\n' then ' ' else c) = c := by
    intro c hc
    rw [if_neg (hs.2.1 c hc).2]
  rw [List.map_congr_left this]
  exact List.map_id b

theorem cleanBullet_safe_nl {b : Str} (hs : safeBullet b) : cleanBullet (b ++ ['\n']) = some b := by
  unfold cleanBullet
  rw [stripWs_safe_nl hs]
  rw [if_neg hs.1]
  congr 1
  have : ∀ c ∈ b, (if c = '\n' then ' ' else c) = c := by
    intro c hc
    rw [if_neg (hs.2.1 c hc).2]
  rw [List.map_congr_left this]
  exact List.map_id b

theorem filterMap_rawOf : ∀ (bullets : List Str), (∀ b ∈ bullets, safeBullet b) →
    (rawOf bullets).filterMap cleanBullet = bullets := by
  intro bullets
  induction bullets with
  | nil => intro _; rfl
  | cons b bs ih =>
    intro hsafe
    have hb := hsafe b (List.mem_cons_self ..)
    cases bs with
    | nil =>
      simp [rawOf, List.filterMap, cleanBullet_safe hb]
    | cons b2 bs2 =>
      rw [show rawOf (b :: b2 :: bs2) = (b ++ ['\n']) :: rawOf (b2 :: bs2) from rfl]
      rw [List.filterMap_cons, cleanBullet_safe_nl hb]
      rw [ih (fun x hx => hsafe x (List.mem_cons_of_mem _ hx))]

theorem ciEq_backslash_false {c : Char} (h : c ≠ '\\') : ciEq '\\' c = false := by
  rw [Bool.eq_false_iff]
  intro hx
  exact h ((ciEq_backslash_iff c).mp hx)

theorem endItemTok_chars :
    endItemizeTok = ['\\', 'e', 'n', 'd', lbrace, 'i', 't', 'e', 'm', 'i', 'z', 'e', rbrace] := rfl

theorem splitPref_endItemTok_none {c : Char} {x : Str} (h : c ≠ '\\') :
    splitPref ciEq endItemizeTok (c :: x) = none := by
  rw [endItemTok_chars]
  simp only [splitPref]
  rw [if_neg]
  intro hx
  exact h ((ciEq_backslash_iff c).mp hx)

theorem splitPref_endItem_at_item (x : Str) :
    splitPref ciEq endItemizeTok ('\\' :: 'i' :: x) = none := by
  rw [endItemTok_chars]
  simp only [splitPref]
  rw [if_pos (by decide), if_neg (by decide)]
  rfl

theorem findSplit_endItem_skip {blk t b m r : Str} (hblk : ∀ c ∈ blk, c ≠ '\\')
    (h : findSplit ciEq endItemizeTok t = some (b, m, r)) :
    findSplit ciEq endItemizeTok (blk ++ t) = some (blk ++ b, m, r) := by
  rw [endItemTok_chars] at h ⊢
  exact findSplit_skip_chars (fun c hc => ciEq_backslash_false (hblk c hc)) h

theorem findSplit_endItem_items : ∀ (bullets : List Str), (∀ b ∈ bullets, safeBullet b) →
    ∀ t : Str, findSplit ciEq endItemizeTok (itemsOf bullets ++ (endItemizeTok ++ t)) =
      some (itemsOf bullets, endItemizeTok, t) := by
  intro bullets
  induction bullets with
  | nil =>
    intro _ t
    simpa [itemsOf] using findSplit_of_here (splitPref_refl_ci endItemizeTok t)
  | cons b bs ih =>
    intro hsafe t
    have hb := hsafe b (List.mem_cons_self ..)
    have h0 := ih (fun x hx => hsafe x (List.mem_cons_of_mem _ hx)) t
    have h1 := findSplit_cons_of_none
      (splitPref_endItemTok_none (by decide : ('\n' : Char) ≠ '\\')) h0
    have h2 := findSplit_endItem_skip (fun c hc => (hb.2.1 c hc).1) h1
    have h3 := findSplit_cons_of_none
      (splitPref_endItemTok_none (by decide : (' ' : Char) ≠ '\\')) h2
    have h4 := findSplit_cons_of_none
      (splitPref_endItemTok_none (by decide : ('m' : Char) ≠ '\\')) h3
    have h5 := findSplit_cons_of_none
      (splitPref_endItemTok_none (by decide : ('e' : Char) ≠ '\\')) h4
    have h6 := findSplit_cons_of_none
      (splitPref_endItemTok_none (by decide : ('t' : Char) ≠ '\\')) h5
    have h7 := findSplit_cons_of_none
      (splitPref_endItemTok_none (by decide : ('i' : Char) ≠ '\\')) h6
    have h8 := findSplit_cons_of_none (splitPref_endItem_at_item _) h7
    simpa [itemsOf, itemTok_chars, List.append_assoc] using h8

theorem secSummaryTok_chars : sectionSummaryTok = '\\' :: (strL "section" ++ braced "Summary") := rfl

theorem beginItemTok_chars : beginItemizeTok = '\\' :: (strL "begin" ++ braced "itemize") := rfl

theorem findSplit_bsTok_skip {tok tt : Str} (htok : tok = '\\' :: tt)
    {blk t b m r : Str} (hblk : ∀ c ∈ blk, c ≠ '\\')
    (h : findSplit ciEq tok t = some (b, m, r)) :
    findSplit ciEq tok (blk ++ t) = some (blk ++ b, m, r) := by
  subst htok
  exact findSplit_skip_chars (fun c hc => ciEq_backslash_false (hblk c hc)) h

/-- A well-formed document for the summary round trip: arbitrary anchor-free
prefix, a canonical `%-+SUMMARY-+` marker, backslash-free filler, the section
heading, backslash-free filler, `\begin{itemize}` ending its line, one
`\item b` line per bullet, `\end{itemize}`, and an arbitrary suffix. -/
def canonSummaryDoc (pre mid1 mid2 post : Str) (d1 d2 : Nat) (bullets : List Str) : Str :=
  pre ++ (anchorChars d1 d2 ++ (mid1 ++ (sectionSummaryTok ++ (mid2 ++ (beginItemizeTok ++
    ('\n' :: (itemsOf bullets ++ (endItemizeTok ++ post))))))))

theorem extract_canonical (pre mid1 mid2 post : Str) (d1 d2 : Nat) (bullets : List Str)
    (hd1 : 0 < d1) (hd2 : 0 < d2)
    (hpre : ∀ c ∈ pre, c ≠ '%')
    (hm1h : mid1.head? ≠ some '-')
    (hm1 : ∀ c ∈ mid1, c ≠ '\\') (hm2 : ∀ c ∈ mid2, c ≠ '\\')
    (hbne : bullets ≠ []) (hsafe : ∀ b ∈ bullets, safeBullet b) :
    extract_summary_section (canonSummaryDoc pre mid1 mid2 post d1 d2 bullets) = some bullets := by
  have hrest_head : (mid1 ++ (sectionSummaryTok ++ (mid2 ++ (beginItemizeTok ++
      ('\n' :: (itemsOf bullets ++ (endItemizeTok ++ post))))))).head? ≠ some '-' := by
    cases mid1 with
    | nil =>
      rw [List.nil_append, secSummaryTok_chars]
      simp only [List.cons_append, List.head?_cons]
      simp
    | cons a l =>
      simp only [List.cons_append, List.head?_cons]
      simpa using hm1h
  have hanchor := matchAnchorHead_canonical hd1 hd2 hrest_head
  have hfa := findAnchor_skip hpre (findAnchor_of_head hanchor)
  have hS : findSplit ciEq sectionSummaryTok
      (mid1 ++ (sectionSummaryTok ++ (mid2 ++ (beginItemizeTok ++
        ('\n' :: (itemsOf bullets ++ (endItemizeTok ++ post))))))) =
      some (mid1, sectionSummaryTok, mid2 ++ (beginItemizeTok ++
        ('\n' :: (itemsOf bullets ++ (endItemizeTok ++ post))))) := by
    have hh := findSplit_of_here (splitPref_refl_ci sectionSummaryTok
      (mid2 ++ (beginItemizeTok ++ ('\n' :: (itemsOf bullets ++ (endItemizeTok ++ post))))))
    simpa using findSplit_bsTok_skip secSummaryTok_chars hm1 hh
  have hB : findSplit ciEq beginItemizeTok
      (mid2 ++ (beginItemizeTok ++ ('\n' :: (itemsOf bullets ++ (endItemizeTok ++ post))))) =
      some (mid2, beginItemizeTok, '\n' :: (itemsOf bullets ++ (endItemizeTok ++ post))) := by
    have hh := findSplit_of_here (splitPref_refl_ci beginItemizeTok
      ('\n' :: (itemsOf bullets ++ (endItemizeTok ++ post))))
    simpa using findSplit_bsTok_skip beginItemTok_chars hm2 hh
  have hE : findSplit ciEq endItemizeTok
      ('\n' :: (itemsOf bullets ++ (endItemizeTok ++ post))) =
      some ('\n' :: itemsOf bullets, endItemizeTok, post) :=
    findSplit_cons_of_none (splitPref_endItemTok_none (by decide : ('\n' : Char) ≠ '\\'))
      (findSplit_endItem_items bullets hsafe post)
  unfold canonSummaryDoc extract_summary_section
  rw [hfa]
  dsimp only
  rw [hS]
  dsimp only
  rw [hB]
  dsimp only
  rw [hE]
  dsimp only
  rw [parseItems_cons_of_none (splitPref_itemTok_none (by decide : ('\n' : Char) ≠ '\\')),
    parseItems_itemsOf bullets hsafe, filterMap_rawOf bullets hsafe]
  rw [if_neg hbne]

theorem escStep_one_bs (x : Str) : escStep ('1' :: '\\' :: x) = Except.ok ([TItem.grp 1], '\\' :: x) := rfl

theorem escStep_bs (x : Str) : escStep ('\\' :: x) = Except.ok ([TItem.lit '\\'], x) := rfl

theorem parseTemplate_esc {s : Str} {its : List TItem} {r2 : Str}
    (h : escStep s = Except.ok (its, r2)) :
    parseTemplate ('\\' :: s) = (parseTemplate r2).map (fun t => its ++ t) := by
  unfold parseTemplate
  simp only [List.length_cons, parseTemplateF]
  rw [if_pos trivial, h]
  dsimp only
  rw [parseTemplateF_congr (escStep_shrinks h) le_rfl]

theorem parseTemplate_lit {c : Char} {s : Str} (h : c ≠ '\\') :
    parseTemplate (c :: s) = (parseTemplate s).map (fun t => TItem.lit c :: t) := by
  unfold parseTemplate
  simp only [List.length_cons, parseTemplateF]
  rw [if_neg h]

theorem parseTemplate_lits : ∀ {l : Str}, (∀ c ∈ l, c ≠ '\\') → ∀ (t : Str),
    parseTemplate (l ++ t) = (parseTemplate t).map (fun r => l.map TItem.lit ++ r) := by
  intro l
  induction l with
  | nil =>
    intro _ t
    simp only [List.nil_append, List.map_nil]
    cases parseTemplate t <;> rfl
  | cons c l ih =>
    intro hl t
    rw [List.cons_append, parseTemplate_lit (hl c (List.mem_cons_self ..)),
      ih (fun x hx => hl x (List.mem_cons_of_mem _ hx)) t]
    cases parseTemplate t <;> rfl

theorem parseTemplate_item (b : Str) (hb : ∀ c ∈ b, c ≠ '\\') (t : Str) :
    parseTemplate (strL "\\\\item " ++ (b ++ t)) =
    (parseTemplate t).map
      (fun r => (TItem.lit '\\' :: (strL "item " ++ b).map TItem.lit) ++ r) := by
  have hshape : strL "\\\\item " ++ (b ++ t) = '\\' :: ('\\' :: ((strL "item " ++ b) ++ t)) := by
    simp [strL, List.append_assoc]
  rw [hshape, parseTemplate_esc (escStep_bs _)]
  have hl : ∀ c ∈ strL "item " ++ b, c ≠ '\\' := by
    intro c hc
    rcases List.mem_append.mp hc with hm | hm
    · intro hx
      subst hx
      revert hm
      decide
    · exact hb c hm
  rw [parseTemplate_lits hl t]
  cases parseTemplate t <;> rfl

/-- The literal body the parsed template expands to:
`'\n'.join('\item ' + b for b in bullets) + '\n'` with single backslashes. -/
def bodyChars (bullets : List Str) : Str :=
  List.intercalate ['\n'] (bullets.map (fun b => strL "\\item " ++ b)) ++ ['\n']

theorem intercalate_cons2 (sep x y : Str) (ys : List Str) :
    List.intercalate sep (x :: y :: ys) = x ++ sep ++ List.intercalate sep (y :: ys) := by
  simp [List.intercalate, List.intersperse]

theorem intercalate_single (sep x : Str) : List.intercalate sep [x] = x := by
  simp [List.intercalate]

theorem intercalate_map_cons2 (f : Str → Str) (x y : Str) (ys : List Str) :
    List.intercalate ['\n'] ((x :: y :: ys).map f) =
      f x ++ ['\n'] ++ List.intercalate ['\n'] ((y :: ys).map f) := by
  simp [List.intercalate, List.intersperse]

theorem parseTemplate_join : ∀ (bullets : List Str),
    (∀ b ∈ bullets, ∀ c ∈ b, c ≠ '\\') →
    parseTemplate (List.intercalate ['\n'] (bullets.map (fun b => strL "\\\\item " ++ b))
      ++ ['\n', '\\', '3']) =
    Except.ok ((bodyChars bullets).map TItem.lit ++ [TItem.grp 3]) := by
  intro bullets
  induction bullets with
  | nil => intro _; rfl
  | cons b bs ih =>
    intro hb
    have hbb := hb b (List.mem_cons_self ..)
    cases bs with
    | nil =>
      rw [List.map_cons, List.map_nil, intercalate_single, List.append_assoc]
      rw [parseTemplate_item b hbb _]
      rw [show parseTemplate ['\n', '\\', '3'] =
        Except.ok [TItem.lit '\n', TItem.grp 3] from rfl]
      simp [Except.map, bodyChars, intercalate_single, strL, List.append_assoc]
    | cons b2 bs2 =>
      rw [intercalate_map_cons2]
      have hih := ih (fun x hx => hb x (List.mem_cons_of_mem _ hx))
      simp only [List.append_assoc]
      rw [parseTemplate_item b hbb _]
      rw [show (['\n'] : Str) ++
          (List.intercalate ['\n'] ((b2 :: bs2).map (fun b => strL "\\\\item " ++ b))
            ++ ['\n', '\\', '3']) = '\n' ::
          (List.intercalate ['\n'] ((b2 :: bs2).map (fun b => strL "\\\\item " ++ b))
            ++ ['\n', '\\', '3']) from rfl]
      rw [parseTemplate_lit (by decide : ('\n' : Char) ≠ '\\'), hih]
      simp [Except.map, bodyChars, intercalate_cons2, strL, List.append_assoc]

theorem parseTemplate_templ (bullets : List Str) (hb : ∀ b ∈ bullets, ∀ c ∈ b, c ≠ '\\') :
    parseTemplate (templateChars bullets) =
      Except.ok (TItem.grp 1 :: ((bodyChars bullets).map TItem.lit ++ [TItem.grp 3])) := by
  cases bullets with
  | nil => rfl
  | cons b bs =>
    have hhead : ∃ W : Str, List.intercalate ['\n'] ((b :: bs).map (fun x => strL "\\\\item " ++ x))
        ++ ['\n', '\\', '3'] = '\\' :: ('\\' :: W) := by
      cases bs with
      | nil =>
        refine ⟨(strL "item " ++ b) ++ ['\n', '\\', '3'], ?_⟩
        rw [List.map_cons, List.map_nil, intercalate_single]
        simp [strL]
      | cons b2 bs2 =>
        refine ⟨(strL "item " ++ b) ++ (['\n'] ++ (List.intercalate ['\n']
          ((b2 :: bs2).map (fun x => strL "\\\\item " ++ x)) ++ ['\n', '\\', '3'])), ?_⟩
        rw [intercalate_map_cons2]
        simp [strL]
    obtain ⟨W, hW⟩ := hhead
    have hshape : templateChars (b :: bs) = '\\' :: ('1' :: ('\\' :: ('\\' :: W))) := by
      show ['\\', '1'] ++ (List.intercalate ['\n'] ((b :: bs).map (fun x => strL "\\\\item " ++ x))
        ++ ['\n', '\\', '3']) = _
      rw [hW]
      rfl
    rw [hshape, parseTemplate_esc (escStep_one_bs ('\\' :: W)), ← hW,
      parseTemplate_join (b :: bs) hb]
    rfl

theorem bodyChars_eq_itemsOf : ∀ (bullets : List Str), bullets ≠ [] →
    bodyChars bullets = itemsOf bullets := by
  intro bullets
  induction bullets with
  | nil => intro h; exact absurd rfl h
  | cons b bs ih =>
    intro _
    cases bs with
    | nil => simp [bodyChars, itemsOf, intercalate_single, itemTok_chars, strL]
    | cons b2 bs2 =>
      have hi := ih (by simp)
      simp only [bodyChars] at hi ⊢
      rw [intercalate_map_cons2]
      rw [show itemsOf (b :: b2 :: bs2) = (itemTok ++ ' ' :: (b ++ ['\n'])) ++ itemsOf (b2 :: bs2)
        from by simp [itemsOf]]
      rw [← hi]
      simp [itemTok_chars, strL, List.append_assoc]

theorem expandT_lits (g1 g2 g3 : Str) : ∀ (l : Str) (t : List TItem),
    expandT g1 g2 g3 (l.map TItem.lit ++ t) = l ++ expandT g1 g2 g3 t := by
  intro l
  induction l with
  | nil => intro t; rfl
  | cons c cs ih =>
    intro t
    simp only [List.map_cons, List.cons_append, expandT, List.append_eq, ih]

theorem expandT_full (g1 g2 g3 : Str) (body : Str) :
    expandT g1 g2 g3 (TItem.grp 1 :: (body.map TItem.lit ++ [TItem.grp 3])) =
      g1 ++ (body ++ (g3 ++ [])) := by
  rw [show expandT g1 g2 g3 (TItem.grp 1 :: (body.map TItem.lit ++ [TItem.grp 3])) =
    g1 ++ expandT g1 g2 g3 (body.map TItem.lit ++ [TItem.grp 3]) from rfl]
  rw [expandT_lits]
  rfl

theorem tryReplMatchAt_none_of_head {c : Char} {cs : Str} (h : c ≠ '%') :
    tryReplMatchAt (c :: cs) = none := by
  unfold tryReplMatchAt
  rw [matchAnchorHead_none_of_head h]

theorem subSummaryF_no_pct {tok : List TItem} : ∀ (fuel : Nat) (s : Str),
    (∀ c ∈ s, c ≠ '%') → subSummaryF tok fuel s = s := by
  intro fuel
  induction fuel with
  | zero => intro s _; cases s <;> rfl
  | succ n ih =>
    intro s hs
    cases s with
    | nil => rfl
    | cons c cs =>
      simp only [subSummaryF]
      rw [tryReplMatchAt_none_of_head (hs c (List.mem_cons_self ..))]
      dsimp only
      rw [ih cs (fun x hx => hs x (List.mem_cons_of_mem _ hx))]

theorem subSummaryF_skip {tok : List TItem} : ∀ (pre : Str) (fuel : Nat) (s : Str),
    (∀ c ∈ pre, c ≠ '%') →
    subSummaryF tok (pre.length + fuel) (pre ++ s) = pre ++ subSummaryF tok fuel s := by
  intro pre
  induction pre with
  | nil => intro fuel s _; simp
  | cons c p ih =>
    intro fuel s hp
    rw [show (c :: p).length + fuel = (p.length + fuel) + 1 from by
      simp only [List.length_cons]; omega]
    rw [List.cons_append]
    simp only [subSummaryF]
    rw [tryReplMatchAt_none_of_head (hp c (List.mem_cons_self ..))]
    dsimp only
    rw [ih fuel s (fun x hx => hp x (List.mem_cons_of_mem _ hx))]
    rfl

theorem subSummaryF_match {tok : List TItem} {fuel : Nat} {s g1 g2 g3 rest : Str}
    (h : tryReplMatchAt s = some (g1, g2, g3, rest)) (hs : s ≠ []) :
    subSummaryF tok (fuel + 1) s = expandT g1 g2 g3 tok ++ subSummaryF tok fuel rest := by
  cases s with
  | nil => exact absurd rfl hs
  | cons c cs =>
    simp only [subSummaryF]
    rw [h]

/-- Group 1 of the replace pattern on a canonical block: anchor, filler,
heading, filler, `\begin{itemize}` and its line-ending newline. -/
def canonG1 (mid1 mid2 : Str) (d1 d2 : Nat) : Str :=
  anchorChars d1 d2 ++ (mid1 ++ (sectionSummaryTok ++ (mid2 ++ (beginItemizeTok ++ ['\n']))))

theorem tryReplMatchAt_canonical (mid1 mid2 post : Str) (d1 d2 : Nat) (bullets : List Str)
    (hd1 : 0 < d1) (hd2 : 0 < d2)
    (hm1h : mid1.head? ≠ some '-')
    (hm1 : ∀ c ∈ mid1, c ≠ '\\') (hm2 : ∀ c ∈ mid2, c ≠ '\\')
    (hsafe : ∀ b ∈ bullets, safeBullet b) :
    tryReplMatchAt (anchorChars d1 d2 ++ (mid1 ++ (sectionSummaryTok ++ (mid2 ++
        (beginItemizeTok ++ ('\n' :: (itemsOf bullets ++ (endItemizeTok ++ post)))))))) =
      some (canonG1 mid1 mid2 d1 d2, itemsOf bullets, endItemizeTok, post) := by
  have hrest_head : (mid1 ++ (sectionSummaryTok ++ (mid2 ++ (beginItemizeTok ++
      ('\n' :: (itemsOf bullets ++ (endItemizeTok ++ post))))))).head? ≠ some '-' := by
    cases mid1 with
    | nil =>
      rw [List.nil_append, secSummaryTok_chars]
      simp only [List.cons_append, List.head?_cons]
      simp
    | cons a l =>
      simp only [List.cons_append, List.head?_cons]
      simpa using hm1h
  have hanchor := matchAnchorHead_canonical hd1 hd2 hrest_head
  have hS : findSplit ciEq sectionSummaryTok
      (mid1 ++ (sectionSummaryTok ++ (mid2 ++ (beginItemizeTok ++
        ('\n' :: (itemsOf bullets ++ (endItemizeTok ++ post))))))) =
      some (mid1, sectionSummaryTok, mid2 ++ (beginItemizeTok ++
        ('\n' :: (itemsOf bullets ++ (endItemizeTok ++ post))))) := by
    have hh := findSplit_of_here (splitPref_refl_ci sectionSummaryTok
      (mid2 ++ (beginItemizeTok ++ ('\n' :: (itemsOf bullets ++ (endItemizeTok ++ post))))))
    simpa using findSplit_bsTok_skip secSummaryTok_chars hm1 hh
  have hB : findSplit ciEq beginItemizeTok
      (mid2 ++ (beginItemizeTok ++ ('\n' :: (itemsOf bullets ++ (endItemizeTok ++ post))))) =
      some (mid2, beginItemizeTok, '\n' :: (itemsOf bullets ++ (endItemizeTok ++ post))) := by
    have hh := findSplit_of_here (splitPref_refl_ci beginItemizeTok
      ('\n' :: (itemsOf bullets ++ (endItemizeTok ++ post))))
    simpa using findSplit_bsTok_skip beginItemTok_chars hm2 hh
  unfold tryReplMatchAt
  rw [hanchor]
  dsimp only
  rw [hS]
  dsimp only
  rw [hB]
  dsimp only
  rw [show findSplit exEq ['\n'] ('\n' :: (itemsOf bullets ++ (endItemizeTok ++ post))) =
    some ([], ['\n'], itemsOf bullets ++ (endItemizeTok ++ post)) from findSplit_of_here rfl]
  dsimp only
  rw [findSplit_endItem_items bullets hsafe post]
  dsimp only
  simp [canonG1, List.append_assoc]

theorem replace_canonical (pre mid1 mid2 post : Str) (d1 d2 : Nat) (bullets : List Str)
    (hd1 : 0 < d1) (hd2 : 0 < d2)
    (hpre : ∀ c ∈ pre, c ≠ '%') (hpost : ∀ c ∈ post, c ≠ '%')
    (hm1h : mid1.head? ≠ some '-')
    (hm1 : ∀ c ∈ mid1, c ≠ '\\') (hm2 : ∀ c ∈ mid2, c ≠ '\\')
    (hbne : bullets ≠ []) (hsafe : ∀ b ∈ bullets, safeBullet b) :
    replace_summary_section (canonSummaryDoc pre mid1 mid2 post d1 d2 bullets) bullets =
      Except.ok (canonSummaryDoc pre mid1 mid2 post d1 d2 bullets) := by
  have hbs : ∀ b ∈ bullets, ∀ c ∈ b, c ≠ '\\' := fun b hb c hc => ((hsafe b hb).2.1 c hc).1
  have htry := tryReplMatchAt_canonical mid1 mid2 post d1 d2 bullets hd1 hd2 hm1h hm1 hm2 hsafe
  unfold replace_summary_section
  rw [parseTemplate_templ bullets hbs]
  dsimp only
  congr 1
  unfold subSummary canonSummaryDoc
  rw [List.length_append]
  rw [subSummaryF_skip pre _ _ hpre]
  congr 1
  have hMne : anchorChars d1 d2 ++ (mid1 ++ (sectionSummaryTok ++ (mid2 ++
      (beginItemizeTok ++ ('\n' :: (itemsOf bullets ++ (endItemizeTok ++ post))))))) ≠ [] := by
    simp [anchorChars]
  have hMfuel : (anchorChars d1 d2 ++ (mid1 ++ (sectionSummaryTok ++ (mid2 ++
      (beginItemizeTok ++ ('\n' :: (itemsOf bullets ++ (endItemizeTok ++ post)))))))).length =
      ((anchorChars d1 d2 ++ (mid1 ++ (sectionSummaryTok ++ (mid2 ++
        (beginItemizeTok ++ ('\n' :: (itemsOf bullets ++ (endItemizeTok ++ post)))))))).length
        - 1) + 1 := by
    have : 0 < (anchorChars d1 d2 ++ (mid1 ++ (sectionSummaryTok ++ (mid2 ++
        (beginItemizeTok ++ ('\n' :: (itemsOf bullets ++ (endItemizeTok ++ post)))))))).length :=
      List.length_pos.mpr hMne
    omega
  rw [hMfuel, subSummaryF_match htry hMne]
  rw [subSummaryF_no_pct _ post hpost]
  rw [expandT_full, bodyChars_eq_itemsOf bullets hbne]
  simp [canonG1, List.append_assoc]

/-- C1 (corrected): for documents whose Summary block is in canonical form —
an anchor-free prefix, a `%-+SUMMARY-+` marker, backslash-free filler not
starting with `-`, the `\section{Summary}` heading, backslash-free filler,
`\begin{itemize}` ending its line, one non-empty backslash-free stripped
`\item` line per bullet, `\end{itemize}`, and an anchor-free suffix —
`extract_summary_section` returns exactly the bullet list and
`replace_summary_section` with those bullets returns the document unchanged,
so the round trip is the identity.  (On non-canonical blocks it is not:
`summary_roundtrip_duplicates_bullet`.) -/
theorem summary_roundtrip_canonical
    (pre mid1 mid2 post : Str) (d1 d2 : Nat) (bullets : List Str)
    (hd1 : 0 < d1) (hd2 : 0 < d2)
    (hpre : ∀ c ∈ pre, c ≠ '%') (hpost : ∀ c ∈ post, c ≠ '%')
    (hm1h : mid1.head? ≠ some '-')
    (hm1 : ∀ c ∈ mid1, c ≠ '\\') (hm2 : ∀ c ∈ mid2, c ≠ '\\')
    (hbne : bullets ≠ []) (hsafe : ∀ b ∈ bullets, safeBullet b) :
    extract_summary_section (canonSummaryDoc pre mid1 mid2 post d1 d2 bullets) = some bullets ∧
    replace_summary_section (canonSummaryDoc pre mid1 mid2 post d1 d2 bullets) bullets =
      Except.ok (canonSummaryDoc pre mid1 mid2 post d1 d2 bullets) :=
  ⟨extract_canonical pre mid1 mid2 post d1 d2 bullets hd1 hd2 hpre hm1h hm1 hm2 hbne hsafe,
   replace_canonical pre mid1 mid2 post d1 d2 bullets hd1 hd2 hpre hpost hm1h hm1 hm2 hbne hsafe⟩

theorem summary_roundtrip_canonical_witness :
    ((0 : Nat) < 2 ∧ (∀ c ∈ strL "x\n", c ≠ '%') ∧ (∀ c ∈ strL "\nrest", c ≠ '%') ∧
      (strL "\n").head? ≠ some '-' ∧ (∀ c ∈ strL "\n", c ≠ '\\') ∧
      ([strL "Built a tool", strL "b2"] : List Str) ≠ [] ∧
      (∀ b ∈ ([strL "Built a tool", strL "b2"] : List Str), safeBullet b)) ∧
    (extract_summary_section (canonSummaryDoc (strL "x\n") (strL "\n") (strL "\n")
        (strL "\nrest") 2 2 [strL "Built a tool", strL "b2"]) =
      some [strL "Built a tool", strL "b2"] ∧
    replace_summary_section (canonSummaryDoc (strL "x\n") (strL "\n") (strL "\n")
        (strL "\nrest") 2 2 [strL "Built a tool", strL "b2"])
        [strL "Built a tool", strL "b2"] =
      Except.ok (canonSummaryDoc (strL "x\n") (strL "\n") (strL "\n")
        (strL "\nrest") 2 2 [strL "Built a tool", strL "b2"])) :=
  ⟨⟨by decide, by decide, by decide, by decide, by decide, by decide, by decide⟩,
   summary_roundtrip_canonical (strL "x\n") (strL "\n") (strL "\n") (strL "\nrest") 2 2
     [strL "Built a tool", strL "b2"] (by decide) (by decide) (by decide) (by decide)
     (by decide) (by decide) (by decide) (by decide) (by decide)⟩

theorem subHLoop_decomp_aux : ∀ (n : Nat) (r : Str), r.length ≤ n →
    ∀ {t g rest : Str}, subHLoop r = some (t, g, rest) → r = t ++ (g ++ rest) := by
  intro n
  induction n with
  | zero =>
    intro r hle t g rest h
    have hr : r = [] := List.length_eq_zero.mp (Nat.le_zero.mp hle)
    subst hr
    unfold subHLoop at h
    dsimp only at h
    rw [show findSplit ciEq subHeadListStartTok ([] : Str) = none from rfl] at h
    cases h
  | succ n ih =>
    intro r hle t g rest h
    unfold subHLoop at h
    dsimp only at h
    cases hf : findSplit ciEq subHeadListStartTok r with
    | none =>
      rw [hf] at h
      cases h
    | some x =>
      obtain ⟨b, m, r2⟩ := x
      rw [hf] at h
      dsimp only at h
      obtain ⟨hd, hm⟩ := findSplit_decomp hf
      have hmne : 0 < m.length := by rw [hm]; decide
      cases hsp : splitPref ciEq subheadingTok (spanP isWsC r2).2 with
      | some y =>
        obtain ⟨mh, r4⟩ := y
        rw [hsp] at h
        dsimp only at h
        cases hfe : findSplit ciEq itemListEndTok r4 with
        | none =>
          rw [hfe] at h
          cases h
        | some z =>
          obtain ⟨c2, me, rest2⟩ := z
          rw [hfe] at h
          dsimp only at h
          simp only [Option.some.injEq, Prod.mk.injEq] at h
          obtain ⟨h1, h2, h3⟩ := h
          subst h1 h2 h3
          have hsd := spanP_decomp isWsC r2
          obtain ⟨hd2, _⟩ := splitPref_decomp hsp
          obtain ⟨hd3, _⟩ := findSplit_decomp hfe
          have hr : r = b ++ m ++ ((spanP isWsC r2).1 ++ (spanP isWsC r2).2) := by
            rw [← hsd]
            exact hd
          rw [hr, hd2, hd3]
          simp [List.append_assoc]
      | none =>
        rw [hsp] at h
        dsimp only at h
        cases hrec : subHLoop r2 with
        | none =>
          rw [hrec] at h
          cases h
        | some w =>
          obtain ⟨w1, w2, w3⟩ := w
          rw [hrec] at h
          simp only [Option.map_some', Option.some.injEq, Prod.mk.injEq] at h
          obtain ⟨h1, h2, h3⟩ := h
          subst h1 h2 h3
          have hlen := congrArg List.length hd
          simp only [List.length_cons, List.length_append] at hlen
          have hr2 : r2.length ≤ n := by omega
          have hrec2 := ih r2 hr2 hrec
          rw [hd, hrec2]
          simp [List.append_assoc]

theorem subHLoop_decomp {r t g rest : Str} (h : subHLoop r = some (t, g, rest)) :
    r = t ++ (g ++ rest) :=
  subHLoop_decomp_aux r.length r le_rfl h

theorem replace_first_experience_spec (doc ne : Str) :
    replace_first_experience doc ne = doc ∨
      ∃ a g rest, doc = a ++ (g ++ rest) ∧ replace_first_experience doc ne = a ++ (ne ++ rest) := by
  unfold replace_first_experience
  cases h1 : findSplit ciEq secProfExpTok doc with
  | none => left; rfl
  | some x =>
    obtain ⟨a, m, r⟩ := x
    dsimp only
    cases h2 : subHLoop r with
    | none => left; rfl
    | some y =>
      obtain ⟨g1t, g2, rest⟩ := y
      dsimp only
      right
      refine ⟨a ++ m ++ g1t, g2, rest, ?_, ?_⟩
      · have hd := (findSplit_decomp h1).1
        have hr := subHLoop_decomp h2
        rw [hd, hr]
        simp [List.append_assoc]
      · simp [List.append_assoc]

theorem replaceSkillsWith_decomp {secTok doc ns out : Str}
    (h : replaceSkillsWith secTok doc ns = some out) :
    ∃ a g rest, doc = a ++ (g ++ rest) ∧ out = a ++ (ns ++ rest) := by
  unfold replaceSkillsWith at h
  cases h1 : findSplit ciEq secTok doc with
  | none => rw [h1] at h; cases h
  | some x =>
    obtain ⟨a, m, r⟩ := x
    rw [h1] at h
    dsimp only at h
    cases h2 : findSplit ciEq beginItemizeTok r with
    | none => rw [h2] at h; cases h
    | some y =>
      obtain ⟨b2, m2, r2⟩ := y
      rw [h2] at h
      dsimp only at h
      cases h3 : findSplit ciEq endItemizeTok r2 with
      | none => rw [h3] at h; cases h
      | some z =>
        obtain ⟨b3, m3, rest⟩ := z
        rw [h3] at h
        dsimp only at h
        simp only [Option.some.injEq] at h
        refine ⟨a, m ++ (b2 ++ (m2 ++ (b3 ++ m3))), rest, ?_, ?_⟩
        · have hd1 := (findSplit_decomp h1).1
          have hd2 := (findSplit_decomp h2).1
          have hd3 := (findSplit_decomp h3).1
          rw [hd1, hd2, hd3]
          simp [List.append_assoc]
        · rw [← h]
          simp [List.append_assoc]

theorem replace_skills_spec (doc ns : Str) :
    replace_skills_section doc ns = doc ∨
      ∃ a g rest, doc = a ++ (g ++ rest) ∧ replace_skills_section doc ns = a ++ (ns ++ rest) := by
  unfold replace_skills_section
  cases h1 : replaceSkillsWith secSkillsTok doc ns with
  | some out =>
    dsimp only
    right
    obtain ⟨a, g, rest, hd, ho⟩ := replaceSkillsWith_decomp h1
    exact ⟨a, g, rest, hd, ho⟩
  | none =>
    dsimp only
    cases h2 : replaceSkillsWith secTechSkillsTok doc ns with
    | some out =>
      dsimp only
      right
      obtain ⟨a, g, rest, hd, ho⟩ := replaceSkillsWith_decomp h2
      exact ⟨a, g, rest, hd, ho⟩
    | none => left; rfl

/-- C6 (corrected): `replace_first_experience` and `replace_skills_section`
are total pure transforms — each returns either the input unchanged or the
document with exactly the anchored region replaced (prefix and suffix of the
original preserved around the new text).  `replace_summary_section` parses a
replacement template built from the bullet text, so it is total only for
bullets free of backslashes: for those it always returns a string (for a
bullet with a template escape it instead raises, `replace_summary_raises`). -/
theorem replacement_totality (doc newExp newSkills : Str) (bullets : List Str)
    (hb : ∀ b ∈ bullets, ∀ c ∈ b, c ≠ '\\') :
    (replace_first_experience doc newExp = doc ∨
      ∃ a g rest, doc = a ++ (g ++ rest) ∧
        replace_first_experience doc newExp = a ++ (newExp ++ rest)) ∧
    (replace_skills_section doc newSkills = doc ∨
      ∃ a g rest, doc = a ++ (g ++ rest) ∧
        replace_skills_section doc newSkills = a ++ (newSkills ++ rest)) ∧
    ∃ out, replace_summary_section doc bullets = Except.ok out :=
  ⟨replace_first_experience_spec doc newExp, replace_skills_spec doc newSkills,
   ⟨subSummary (TItem.grp 1 :: ((bodyChars bullets).map TItem.lit ++ [TItem.grp 3])) doc, by
      unfold replace_summary_section
      rw [parseTemplate_templ bullets hb]⟩⟩

theorem replacement_totality_witness :
    (∀ b ∈ ([strL "led team of 5"] : List Str), ∀ c ∈ b, c ≠ '\\') ∧
    ((replace_first_experience (strL "no anchors here") (strL "NEW") =
        strL "no anchors here" ∨
      ∃ a g rest, strL "no anchors here" = a ++ (g ++ rest) ∧
        replace_first_experience (strL "no anchors here") (strL "NEW") =
          a ++ (strL "NEW" ++ rest)) ∧
    (replace_skills_section (strL "no anchors here") (strL "SK") =
        strL "no anchors here" ∨
      ∃ a g rest, strL "no anchors here" = a ++ (g ++ rest) ∧
        replace_skills_section (strL "no anchors here") (strL "SK") =
          a ++ (strL "SK" ++ rest)) ∧
    ∃ out, replace_summary_section (strL "no anchors here") [strL "led team of 5"] =
      Except.ok out) :=
  ⟨by decide,
   replacement_totality (strL "no anchors here") (strL "NEW") (strL "SK")
     [strL "led team of 5"] (by decide)⟩
